import Mathlib

/-!
Byte masking: the mask-string parser and the byte-range decoder.

A shallow embedding of `src/byte_masking_extension.cpp`:

* `ParseMaskString` (the mask-string parser, lines 21-74),
* `ExtractBytesToInt` (the byte-range decoder, lines 84-102),
* `MaskBytesScalarFun` (the per-row driver, lines 104-194).

A `std::string` is a list of characters, a payload is a list of bytes.
`int` values are integers; the one narrowing conversion of the source,
`(int)payload.length()`, is kept as a wrap to 32 bits.  An `int64_t` is
held as its 64-bit pattern and read back in two's complement.
-/

namespace ByteMasking

/-! ## The part of `std::string` the parser uses -/

/-- A `std::string`. -/
abbrev Str := List Char

/-- Membership in the set `" \t"` handed to `find_first_not_of` and `find_last_not_of`. -/
def isBlank (c : Char) : Bool := c == ' ' || c == '\t'

/-- The call `s.find(c)`: index of the first occurrence of `c`; `none` is `string::npos`. -/
def find (c : Char) : Str → Option Nat
  | [] => none
  | x :: xs => if x = c then some 0 else (find c xs).map (· + 1)

/-- The call `s.find_first_not_of(" \t")`: index of the first character that is not a
space or a tab; `none` is `string::npos`. -/
def find_first_not_of : Str → Option Nat
  | [] => none
  | x :: xs => if isBlank x then (find_first_not_of xs).map (· + 1) else some 0

/-- The call `s.find_last_not_of(" \t")`: index of the last character that is not a
space or a tab; `none` is `string::npos`. -/
def find_last_not_of : Str → Option Nat
  | [] => none
  | x :: xs =>
    match find_last_not_of xs with
    | some p => some (p + 1)
    | none => if isBlank x then none else some 0

/-- The call `s.erase(0, n)` with `n` the result of a find: the first `n` characters go,
and with `n = npos` all of them. -/
def erasePrefix (s : Str) : Option Nat → Str
  | some n => s.drop n
  | none => []

/-- The call `s.erase(p + 1)` with `p` the result of a find: everything from index
`p + 1` on goes; `npos + 1` wraps to `0`, which empties the string. -/
def eraseAfter (s : Str) : Option Nat → Str
  | some p => s.take (p + 1)
  | none => []

/-- The two-line trim idiom of the source:
`s.erase(0, s.find_first_not_of(" \t")); s.erase(s.find_last_not_of(" \t") + 1);` -/
def trim (s : Str) : Str :=
  let s1 := erasePrefix s (find_first_not_of s)
  eraseAfter s1 (find_last_not_of s1)

/-- The call `std::getline(ss, token, ',')` on the unread rest of the stream: `none`
when nothing could be extracted (the stream is exhausted, the loop ends),
otherwise the token up to the next `','` (or the end) and the rest of the
stream after that delimiter. -/
def getline : Str → Option (Str × Str)
  | [] => none
  | c :: cs =>
    if c = ',' then some ([], cs)
    else
      match getline cs with
      | none => some ([c], [])
      | some (tok, rest) => some (c :: tok, rest)

/-- The tokens successive calls of `getline(ss, token, ',')` deliver until the
call fails: the pieces between commas, without a last empty piece. -/
def getlines : Str → List Str
  | [] => []
  | c :: cs =>
    if c = ',' then [] :: getlines cs
    else
      match getlines cs with
      | [] => [[c]]
      | tok :: toks => (c :: tok) :: toks

/-! ## `std::stoi` and `std::to_string` -/

/-- The C locale's `isspace`, which `strtol` uses to skip leading white space. -/
def isspace (c : Char) : Bool :=
  c == ' ' || c == '\t' || c == '\n' || c == '\x0b' || c == '\x0c' || c == '\r'

/-- The two exceptions `std::stoi` throws. -/
inductive StoiError where
  | invalid_argument
  | out_of_range
  deriving DecidableEq

/-- Value of a run of decimal digits, most significant first. -/
def digitsValue (ds : Str) : Nat :=
  ds.foldl (fun acc c => acc * 10 + (c.toNat - '0'.toNat)) 0

/-- The sign `strtol` reads, and what follows it. -/
def stoiSign : Str → Bool × Str
  | '-' :: r => (true, r)
  | '+' :: r => (false, r)
  | s => (false, s)

/-- The call `std::stoi(s)`: leading white space is skipped, an optional sign is read,
then the longest run of decimal digits; what follows is ignored.  No digit:
`std::invalid_argument`.  A value that does not fit an `int`:
`std::out_of_range`. -/
def stoi (s : Str) : Except StoiError Int :=
  let sr := stoiSign (s.dropWhile isspace)
  let ds := sr.2.takeWhile Char.isDigit
  if ds = [] then .error .invalid_argument
  else
    let v : Int := if sr.1 then -(digitsValue ds : Int) else (digitsValue ds : Int)
    if v < -2147483648 ∨ 2147483647 < v then .error .out_of_range else .ok v

/-- The call `std::to_string(v)` on an `int`. -/
def to_string (v : Int) : Str :=
  if v < 0 then '-' :: Nat.toDigits 10 v.natAbs else Nat.toDigits 10 v.natAbs

/-! ## `ParseMaskString` -/

/-- The `MaskEntry` of the source. -/
structure MaskEntry where
  name : Str
  start_byte : Int
  end_byte : Int
  deriving DecidableEq

/-- What a call can throw: a DuckDB `InvalidInputException` with its message,
or the `std::out_of_range` of `std::stoi`, which `ParseMaskString` does not
catch. -/
inductive Exn where
  | InvalidInputException (msg : Str)
  | out_of_range
  deriving DecidableEq

/-- Message of the exception of line 33, about a token without `':'`. -/
def msgMissingColon (token : Str) : Str :=
  "Invalid mask format. Expected 'name:start-end', got: ".toList ++ token

/-- Message of the exception of line 47, about a range without `'-'`. -/
def msgMissingDash (range_str : Str) : Str :=
  "Invalid range format. Expected 'start-end', got: ".toList ++ range_str

/-- Message of the exception of line 64, about a negative start or an end
before the start. -/
def msgInvalidRange (start_byte end_byte : Int) : Str :=
  "Invalid byte range: ".toList ++ to_string start_byte ++ "-".toList ++ to_string end_byte

/-- Message of the exception of line 69, about a start or end that is no number. -/
def msgInvalidNumber (range_str : Str) : Str :=
  "Invalid byte range numbers in: ".toList ++ range_str

/-- The `try` block of lines 50-70 with its `catch`: both numbers are read
with `stoi`, the start first; `std::invalid_argument` becomes the exception
of line 69, `std::out_of_range` passes through. -/
def parseRange (name range_str : Str) (dash_pos : Nat) : Except Exn MaskEntry :=
  let start_str := trim (range_str.take dash_pos)
  let end_str := trim (range_str.drop (dash_pos + 1))
  match stoi start_str with
  | .error .invalid_argument => .error (.InvalidInputException (msgInvalidNumber range_str))
  | .error .out_of_range => .error .out_of_range
  | .ok start_byte =>
    match stoi end_str with
    | .error .invalid_argument => .error (.InvalidInputException (msgInvalidNumber range_str))
    | .error .out_of_range => .error .out_of_range
    | .ok end_byte =>
      if start_byte < 0 ∨ end_byte < start_byte then
        .error (.InvalidInputException (msgInvalidRange start_byte end_byte))
      else .ok { name := name, start_byte := start_byte, end_byte := end_byte }

/-- The body of the `while` loop, lines 28-70, for one token. -/
def parseToken (token0 : Str) : Except Exn MaskEntry :=
  let token := trim token0
  match find ':' token with
  | none => .error (.InvalidInputException (msgMissingColon token))
  | some colon_pos =>
    let name := trim (token.take colon_pos)
    let range_str := trim (token.drop (colon_pos + 1))
    match find '-' range_str with
    | none => .error (.InvalidInputException (msgMissingDash range_str))
    | some dash_pos => parseRange name range_str dash_pos

/-- The `while (getline(ss, token, ','))` loop over the tokens still to come,
`entries` being the vector built so far: the first token that throws ends
the call with that exception. -/
def parseTokens : List Str → List MaskEntry → Except Exn (List MaskEntry)
  | [], entries => .ok entries
  | token :: rest, entries =>
    match parseToken token with
    | .error e => .error e
    | .ok entry => parseTokens rest (entries ++ [entry])

/-- The function `ParseMaskString(mask_str)`, lines 21-74. -/
def ParseMaskString (mask_str : Str) : Except Exn (List MaskEntry) :=
  parseTokens (getlines mask_str) []

/-! ## `ExtractBytesToInt` -/

/-- One byte of a payload, as the `unsigned char` the decoder reads. -/
abbrev Byte := Fin 256

/-- The conversion `(int)n` of a `size_t`: the value modulo `2^32`, read in
two's complement. -/
def toInt32 (n : Nat) : Int := ((n : Int) + 2147483648) % 4294967296 - 2147483648

/-- The `int64_t` whose 64-bit pattern is `bits`, in two's complement. -/
def toInt64 (bits : Nat) : Int :=
  if bits % 2 ^ 64 < 2 ^ 63 then ((bits % 2 ^ 64 : Nat) : Int)
  else ((bits % 2 ^ 64 : Nat) : Int) - 2 ^ 64

/-- The expression `payload[i]`.  Inside the payload it is the byte at index
`i`; outside the read is undefined, the model delivers `0` and the state of
the loop keeps the position (see `ExtractState.reads`). -/
def byteAt (payload : List Byte) (i : Int) : Byte :=
  if 0 ≤ i then payload.getD i.toNat 0 else 0

/-- State of the decoder's loop: the 64-bit pattern of `result`, and the
positions `i` at which `payload[i]` has been evaluated, in order. -/
structure ExtractState where
  result : Nat
  reads : List Int
  deriving DecidableEq

/-- The `for` loop of lines 88-99, started at position `i` with `byte_count`
bytes consumed.  `fuel` bounds the number of iterations; `8 - byte_count`
is enough, as the loop's own test `byte_count < 8` then fails
(`extractLoop_fuel`). -/
def extractLoop (payload : List Byte) (end_byte : Int) (big_endian : Bool) :
    Nat → Int → Nat → ExtractState → ExtractState
  | 0, _, _, st => st
  | fuel + 1, i, byte_count, st =>
    if i ≤ end_byte ∧ i < toInt32 payload.length ∧ byte_count < 8 then
      let byte := (byteAt payload i).val
      let result :=
        if big_endian then ((st.result <<< 8) ||| byte) % 2 ^ 64
        else (st.result ||| (byte <<< (byte_count * 8))) % 2 ^ 64
      extractLoop payload end_byte big_endian fuel (i + 1) (byte_count + 1)
        { result := result, reads := st.reads ++ [i] }
    else st

/-- The run of the decoder's loop from `result = 0`, `byte_count = 0`. -/
def extractRun (payload : List Byte) (start_byte end_byte : Int) (big_endian : Bool) :
    ExtractState :=
  extractLoop payload end_byte big_endian 8 start_byte 0 { result := 0, reads := [] }

/-- The function `ExtractBytesToInt(payload, start_byte, end_byte, big_endian)`,
lines 84-102. -/
def ExtractBytesToInt (payload : List Byte) (start_byte end_byte : Int) (big_endian : Bool) :
    Int :=
  toInt64 (extractRun payload start_byte end_byte big_endian).result

/-- The positions at which `ExtractBytesToInt` evaluates `payload[i]`. -/
def ExtractBytesToIntReads (payload : List Byte) (start_byte end_byte : Int)
    (big_endian : Bool) : List Int :=
  (extractRun payload start_byte end_byte big_endian).reads

/-! ## `MaskBytesScalarFun` -/

/-- What the function takes from its host and from the C++ library:
DuckDB's constant `STANDARD_VECTOR_SIZE`, and the `what()` text of the
`std::out_of_range` of `std::stoi`. -/
structure Host where
  STANDARD_VECTOR_SIZE : Nat
  stoi_what : Str

/-- One row of the argument vectors: mask, payload, and the row of the
third vector when the call has one; `none` is SQL `NULL`. -/
structure Row where
  mask : Option Str
  payload : Option (List Byte)
  endian : Option Str

/-- What one row leaves in the result: the null flag, the `offset` and
`length` of its `list_entry_t`, and the key/value pairs written at
`offset, ..., offset + length - 1`. -/
structure RowResult where
  is_null : Bool
  offset : Nat
  length : Nat
  entries : List (Str × Int)
  deriving DecidableEq

/-- Message of the exception of line 158. -/
def msgInvalidEndianness (endian_str : Str) : Str :=
  "Invalid endianness parameter. Must be 'big' or 'little', got: ".toList ++ endian_str

/-- Message of the exception of line 169. -/
def msgCapacity : Str :=
  "Exceeded maximum number of map entries in mask_bytes function".toList

/-- Message of the exception of line 189, which wraps a `std::exception`. -/
def msgProcessing (what : Str) : Str :=
  "Error processing mask_bytes: ".toList ++ what

/-- Lines 148-161: the endianness of the row.  `big_endian = true` is the
default; it stands when the call has no third argument or the row's third
input is `NULL`. -/
def resolveEndianness (has_endianness_param : Bool) (endian : Option Str) :
    Except Exn Bool :=
  if has_endianness_param then
    match endian with
    | some endian_str =>
      if endian_str = "big".toList then .ok true
      else if endian_str = "little".toList then .ok false
      else .error (.InvalidInputException (msgInvalidEndianness endian_str))
    | none => .ok true
  else .ok true

/-- The two `catch` clauses of lines 186-190 applied to what the body threw:
a DuckDB exception is thrown again, a `std::exception` is wrapped. -/
def rethrow (host : Host) : Exn → Exn
  | .InvalidInputException msg => .InvalidInputException msg
  | .out_of_range => .InvalidInputException (msgProcessing host.stoi_what)

/-- The pairs written by the loop of lines 175-182, one per entry. -/
def decodeEntries (payload : List Byte) (big_endian : Bool) (entries : List MaskEntry) :
    List (Str × Int) :=
  entries.map fun entry =>
    (entry.name, ExtractBytesToInt payload entry.start_byte entry.end_byte big_endian)

/-- The body of the row loop, lines 132-190, for one row, `total_entries`
being the count of entries written by the rows before it. -/
def processRow (host : Host) (has_endianness_param : Bool) (total_entries : Nat)
    (row : Row) : Except Exn RowResult :=
  match row.mask, row.payload with
  | some mask, some payload =>
    match resolveEndianness has_endianness_param row.endian with
    | .error e => .error (rethrow host e)
    | .ok current_big_endian =>
      match ParseMaskString mask with
      | .error e => .error (rethrow host e)
      | .ok entries =>
        if total_entries + entries.length > host.STANDARD_VECTOR_SIZE then
          .error (.InvalidInputException msgCapacity)
        else
          .ok { is_null := false, offset := total_entries, length := entries.length,
                entries := decodeEntries payload current_big_endian entries }
  | _, _ => .ok { is_null := true, offset := total_entries, length := 0, entries := [] }

/-- The row loop of lines 129-193 over the rows still to come: the results
of the rows, and the final `total_entries`. -/
def rowLoop (host : Host) (has_endianness_param : Bool) :
    List Row → Nat → Except Exn (List RowResult × Nat)
  | [], total_entries => .ok ([], total_entries)
  | row :: rows, total_entries =>
    match processRow host has_endianness_param total_entries row with
    | .error e => .error e
    | .ok r =>
      match rowLoop host has_endianness_param rows (total_entries + r.length) with
      | .error e => .error e
      | .ok (rs, total) => .ok (r :: rs, total)

/-- The function `MaskBytesScalarFun`, lines 104-194. -/
def MaskBytesScalarFun (host : Host) (has_endianness_param : Bool) (rows : List Row) :
    Except Exn (List RowResult × Nat) :=
  rowLoop host has_endianness_param rows 0

/-! ## Vocabulary of the statements -/

/-- Every character of the string is a space or a tab. -/
def Blank (w : Str) : Prop := ∀ c ∈ w, isBlank c = true

/-- A string is tight when it neither begins nor ends with a space or a tab. -/
def Tight (s : Str) : Prop :=
  (∀ c, s.head? = some c → isBlank c = false) ∧ (∀ c, s.getLast? = some c → isBlank c = false)

/-- The second half of the trim idiom: erase after the last non-blank character. -/
def trimRight (s : Str) : Str := eraseAfter s (find_last_not_of s)

/-- Blank runs that a writer of a mask may put around one token and around
its parts: the token, the name, the range, the start and the end. -/
structure Padding where
  tokenL : Str
  tokenR : Str
  nameL : Str
  nameR : Str
  rangeL : Str
  rangeR : Str
  startL : Str
  startR : Str
  endL : Str
  endR : Str

/-- All runs of the padding are made of spaces and tabs. -/
def Padding.IsBlank (p : Padding) : Prop :=
  Blank p.tokenL ∧ Blank p.tokenR ∧ Blank p.nameL ∧ Blank p.nameR ∧ Blank p.rangeL ∧
    Blank p.rangeR ∧ Blank p.startL ∧ Blank p.startR ∧ Blank p.endL ∧ Blank p.endR

/-- A non-negative integer written in decimal. -/
def decimal (n : Int) : Str := Nat.toDigits 10 n.toNat

/-- One triple written as `name ':' start '-' end` with the padding around
the token and around each part. -/
def renderToken (p : Padding) (f : MaskEntry) : Str :=
  p.tokenL ++
    ((p.nameL ++ f.name ++ p.nameR) ++ [':'] ++
      (p.rangeL ++
        ((p.startL ++ decimal f.start_byte ++ p.startR) ++ ['-'] ++
          (p.endL ++ decimal f.end_byte ++ p.endR)) ++
        p.rangeR)) ++
    p.tokenR

/-- The tokens of the triples joined with `','`. -/
def renderMask (l : List (Padding × MaskEntry)) : Str :=
  [','].intercalate (l.map fun x => renderToken x.1 x.2)

/-- A name the rendering admits: non-empty, without `':'` and `','`, and
neither beginning nor ending with a space or a tab. -/
def ValidName (n : Str) : Prop := n ≠ [] ∧ ':' ∉ n ∧ ',' ∉ n ∧ Tight n

/-- A triple the rendering admits: a valid name and `0 ≤ start ≤ end ≤ 2^31 - 1`. -/
def ValidTriple (f : MaskEntry) : Prop :=
  ValidName f.name ∧ 0 ≤ f.start_byte ∧ f.start_byte ≤ f.end_byte ∧ f.end_byte ≤ 2147483647

/-- The padding that adds nothing. -/
def noPadding : Padding := ⟨[], [], [], [], [], [], [], [], [], []⟩

/-- The positional value the specification gives a big-endian field of `k`
bytes at offset `start`: the sum over `i < k` of
`payload[start + i] * 256 ^ (k - 1 - i)`, lowest offset most significant. -/
def bigEndianValue (payload : List Byte) (start k : Nat) : Nat :=
  ((List.range k).map fun i => (payload.getD (start + i) 0).val * 256 ^ (k - 1 - i)).sum

/-- The positional value the specification gives a little-endian field of
`k` bytes at offset `start`: the sum over `i < k` of
`payload[start + i] * 256 ^ i`, lowest offset least significant. -/
def littleEndianValue (payload : List Byte) (start k : Nat) : Nat :=
  ((List.range k).map fun i => (payload.getD (start + i) 0).val * 256 ^ i).sum

/-- The first comma-separated token of a mask: the text before the first `','`. -/
def firstToken (s : Str) : Str := s.takeWhile (· ≠ ',')

/-- The text after the first occurrence of `c`; empty when there is none. -/
def afterFirst (c : Char) (s : Str) : Str := (s.dropWhile (· ≠ c)).tail

/-- The tokens `w1, ..., wn` written one after the other, each followed by `','`. -/
def commaTerminated : List Str → Str
  | [] => []
  | w :: ws => w ++ ',' :: commaTerminated ws

/-- A host with DuckDB's default vector size and the `what()` text libstdc++
gives the `std::out_of_range` of `std::stoi`. -/
def defaultHost : Host := { STANDARD_VECTOR_SIZE := 2048, stoi_what := "stoi".toList }

/-- The text before the first occurrence of `c`; all of it when there is none. -/
def beforeFirst (c : Char) (s : Str) : Str := s.takeWhile (· ≠ c)

/-- A valid base-10 integer in the words of the specification: an optional
sign followed by one or more decimal digits and nothing else. -/
def isDecimalInteger : Str → Bool
  | '-' :: r => !r.isEmpty && r.all Char.isDigit
  | '+' :: r => !r.isEmpty && r.all Char.isDigit
  | s => !s.isEmpty && s.all Char.isDigit

/-- The `try` block of lines 50-70 once `start_str` and `end_str` are cut out
of the range and trimmed. -/
def readNumbers (name range_str start_str end_str : Str) : Except Exn MaskEntry :=
  match stoi start_str with
  | .error .invalid_argument => .error (.InvalidInputException (msgInvalidNumber range_str))
  | .error .out_of_range => .error .out_of_range
  | .ok start_byte =>
    match stoi end_str with
    | .error .invalid_argument => .error (.InvalidInputException (msgInvalidNumber range_str))
    | .error .out_of_range => .error .out_of_range
    | .ok end_byte =>
      if start_byte < 0 ∨ end_byte < start_byte then
        .error (.InvalidInputException (msgInvalidRange start_byte end_byte))
      else .ok { name := name, start_byte := start_byte, end_byte := end_byte }

/-- One token written as `name ':' start '-' end`, the two numbers in decimal
with a `'-'` in front when negative, with the padding around the token and
around each part. -/
def renderSigned (p : Padding) (name : Str) (start_byte end_byte : Int) : Str :=
  p.tokenL ++
    ((p.nameL ++ name ++ p.nameR) ++ [':'] ++
      (p.rangeL ++
        ((p.startL ++ to_string start_byte ++ p.startR) ++ ['-'] ++
          (p.endL ++ to_string end_byte ++ p.endR)) ++
        p.rangeR)) ++
    p.tokenR

/-- Lines 163-184 with the `catch` clauses, for a row whose endianness is
settled: the mask is parsed, the capacity is checked, the fields are decoded. -/
def decodeRow (host : Host) (total_entries : Nat) (mask : Str) (payload : List Byte)
    (big_endian : Bool) : Except Exn RowResult :=
  match ParseMaskString mask with
  | .error e => .error (rethrow host e)
  | .ok entries =>
    if total_entries + entries.length > host.STANDARD_VECTOR_SIZE then
      .error (.InvalidInputException msgCapacity)
    else
      .ok { is_null := false, offset := total_entries, length := entries.length,
            entries := decodeEntries payload big_endian entries }

/-- The row with another third input. -/
def Row.withEndian (row : Row) (e : Option Str) : Row := { row with endian := e }

/-- The first nine characters of the message of line 158: no other message
of the function begins so. -/
def endiannessHead : Str := "Invalid e".toList

/-! ## Lemmas on the string operations -/

theorem blank_nil : Blank [] := by
  intro c hc; cases hc

theorem blank_append {a b : Str} (ha : Blank a) (hb : Blank b) : Blank (a ++ b) := by
  intro c hc
  rcases List.mem_append.mp hc with h | h
  · exact ha c h
  · exact hb c h

theorem blank_cons {c : Char} {w : Str} : Blank (c :: w) ↔ isBlank c = true ∧ Blank w := by
  simp [Blank]

theorem find_eq_none {c : Char} {s : Str} (h : c ∉ s) : find c s = none := by
  induction s with
  | nil => rfl
  | cons x xs ih =>
    have hx : x ≠ c := fun e => h (by simp [e])
    have hxs : c ∉ xs := fun e => h (by simp [e])
    simp [find, hx, ih hxs]

theorem find_append_cons {c : Char} {a : Str} (b : Str) (h : c ∉ a) :
    find c (a ++ c :: b) = some a.length := by
  induction a with
  | nil => simp [find]
  | cons x xs ih =>
    have hx : x ≠ c := fun e => h (by simp [e])
    have hxs : c ∉ xs := fun e => h (by simp [e])
    simp [find, hx, ih hxs]

theorem find_some_split {c : Char} {s : Str} {n : Nat} (h : find c s = some n) :
    c ∉ s.take n ∧ s = s.take n ++ c :: s.drop (n + 1) := by
  induction s generalizing n with
  | nil => simp [find] at h
  | cons x xs ih =>
    by_cases hx : x = c
    · simp [find, hx] at h
      subst h; simp [hx]
    · simp only [find, hx, if_false, Option.map_eq_some'] at h
      obtain ⟨m, hm, rfl⟩ := h
      have := ih hm
      refine ⟨?_, ?_⟩
      · simp only [List.take_succ_cons, List.mem_cons, not_or]
        exact ⟨fun e => hx e.symm, this.1⟩
      · simp only [List.take_succ_cons, List.drop_succ_cons, List.cons_append, List.cons.injEq, true_and]
        exact this.2

theorem find_isSome_of_mem {c : Char} {s : Str} (h : c ∈ s) : ∃ n, find c s = some n := by
  induction s with
  | nil => cases h
  | cons x xs ih =>
    by_cases hx : x = c
    · exact ⟨0, by simp [find, hx]⟩
    · have : c ∈ xs := by
        rcases List.mem_cons.mp h with e | e
        · exact absurd e.symm hx
        · exact e
      obtain ⟨n, hn⟩ := ih this
      exact ⟨n + 1, by simp [find, hx, hn]⟩

/-- Erasing up to the first non-blank character drops the leading blanks. -/
theorem erasePrefix_eq_dropWhile (s : Str) :
    erasePrefix s (find_first_not_of s) = s.dropWhile isBlank := by
  induction s with
  | nil => rfl
  | cons x xs ih =>
    by_cases hx : isBlank x = true
    · simp only [find_first_not_of, hx, if_true, List.dropWhile_cons_of_pos]
      rw [← ih]
      cases find_first_not_of xs <;> simp [erasePrefix]
    · simp [find_first_not_of, hx, erasePrefix]

theorem trim_eq (s : Str) : trim s = trimRight (s.dropWhile isBlank) := by
  simp [trim, trimRight, erasePrefix_eq_dropWhile]

theorem trimRight_nil : trimRight [] = [] := rfl

theorem find_last_not_of_blank {w : Str} (h : Blank w) : find_last_not_of w = none := by
  induction w with
  | nil => rfl
  | cons x xs ih =>
    rw [blank_cons] at h
    simp [find_last_not_of, ih h.2, h.1]

theorem trimRight_blank {w : Str} (h : Blank w) : trimRight w = [] := by
  simp [trimRight, find_last_not_of_blank h, eraseAfter]

theorem trimRight_cons (x : Char) (xs : Str) :
    trimRight (x :: xs) =
      if trimRight xs = [] then (if isBlank x then [] else [x]) else x :: trimRight xs := by
  unfold trimRight
  cases h : find_last_not_of xs with
  | none =>
    by_cases hx : isBlank x = true <;> simp [find_last_not_of, h, eraseAfter, hx]
  | some p =>
    have hne : xs ≠ [] := by
      intro e; subst e; simp [find_last_not_of] at h
    simp [find_last_not_of, h, eraseAfter, hne]

theorem trimRight_append_blank_of_last (s w : Str)
    (hl : ∀ c, s.getLast? = some c → isBlank c = false) (hw : Blank w) :
    trimRight (s ++ w) = s := by
  induction s with
  | nil => simpa using trimRight_blank hw
  | cons x xs ih =>
    rw [List.cons_append, trimRight_cons]
    cases xs with
    | nil =>
      have hx : isBlank x = false := hl x (by simp)
      simp [trimRight_blank hw, hx]
    | cons y ys =>
      have hl2 : ∀ c, (y :: ys).getLast? = some c → isBlank c = false := by
        intro c hc
        apply hl c
        rw [List.getLast?_cons_cons]; exact hc
      rw [ih hl2]
      simp

theorem dropWhile_blank_append (w s : Str) (hw : Blank w)
    (hh : ∀ c, s.head? = some c → isBlank c = false) :
    (w ++ s).dropWhile isBlank = s := by
  induction w with
  | nil =>
    cases s with
    | nil => rfl
    | cons x xs =>
      have : isBlank x = false := hh x rfl
      simp [List.dropWhile, this]
  | cons c cs ih =>
    rw [blank_cons] at hw
    simp [List.dropWhile, hw.1, ih hw.2]

/-- Trimming removes blank padding around a tight string. -/
theorem trim_pad (w1 s w2 : Str) (h1 : Blank w1) (h2 : Blank w2) (hs : Tight s) :
    trim (w1 ++ s ++ w2) = s := by
  rw [trim_eq, List.append_assoc]
  by_cases he : s = []
  · subst he
    have : Blank (w1 ++ ([] ++ w2)) := blank_append h1 (by simpa using h2)
    have hd : (w1 ++ ([] ++ w2)).dropWhile isBlank = [] := by
      rw [List.dropWhile_eq_nil_iff]; exact this
    rw [hd]; rfl
  · have hh : ∀ c, (s ++ w2).head? = some c → isBlank c = false := by
      intro c hc
      apply hs.1 c
      cases s with
      | nil => exact absurd rfl he
      | cons x xs => simpa using hc
    rw [dropWhile_blank_append w1 (s ++ w2) h1 hh]
    exact trimRight_append_blank_of_last s w2 hs.2 h2

theorem trim_tight (s : Str) (hs : Tight s) : trim s = s := by
  simpa using trim_pad [] s [] blank_nil blank_nil hs

theorem trimRight_decomp (s : Str) :
    ∃ w, Blank w ∧ s = trimRight s ++ w ∧ (∀ c, (trimRight s).getLast? = some c → isBlank c = false) := by
  induction s with
  | nil => exact ⟨[], blank_nil, rfl, by simp [trimRight_nil]⟩
  | cons x xs ih =>
    obtain ⟨w, hw, hxs, hl⟩ := ih
    rw [trimRight_cons]
    by_cases he : trimRight xs = []
    · have hxw : xs = w := by rw [hxs, he]; rfl
      by_cases hx : isBlank x = true
      · refine ⟨x :: xs, ?_, by simp [he, hx], by simp [he, hx]⟩
        rw [blank_cons]; exact ⟨hx, hxw ▸ hw⟩
      · refine ⟨xs, hxw ▸ hw, by simp [he, hx], ?_⟩
        simp only [he, if_true, hx]
        intro c hc
        simp at hc; subst hc; simpa using hx
    · refine ⟨w, hw, ?_, ?_⟩
      · simp only [he, if_false, List.cons_append]; rw [← hxs]
      · simp only [he, if_false]
        intro c hc
        apply hl c
        cases h : trimRight xs with
        | nil => exact absurd h he
        | cons y ys => rw [h, List.getLast?_cons_cons] at hc; exact hc

/-- Every string is its trimmed core between two blank runs. -/
theorem trim_decomp (s : Str) :
    ∃ w1 w2, Blank w1 ∧ Blank w2 ∧ s = w1 ++ trim s ++ w2 ∧ Tight (trim s) := by
  obtain ⟨w2, hw2, hd, hl⟩ := trimRight_decomp (s.dropWhile isBlank)
  refine ⟨s.takeWhile isBlank, w2, ?_, hw2, ?_, ?_, ?_⟩
  · intro c hc; exact List.mem_takeWhile_imp hc
  · rw [trim_eq, List.append_assoc, ← hd, List.takeWhile_append_dropWhile]
  · rw [trim_eq]
    intro c hc
    have h3 : (s.dropWhile isBlank).head? = some c := by
      rw [hd]
      cases h : trimRight (s.dropWhile isBlank) with
      | nil => rw [h] at hc; simp at hc
      | cons y ys => rw [h] at hc; simpa using hc
    have := List.head?_dropWhile_not isBlank s
    rw [h3] at this
    simpa using this
  · rw [trim_eq]; exact hl

theorem trim_append_blank (s w : Str) (hw : Blank w) : trim (s ++ w) = trim s := by
  obtain ⟨w1, w2, h1, h2, hs, ht⟩ := trim_decomp s
  have : s ++ w = w1 ++ trim s ++ (w2 ++ w) := by
    conv_lhs => rw [hs]
    simp
  rw [this]
  exact trim_pad w1 (trim s) (w2 ++ w) h1 (blank_append h2 hw) ht

theorem trim_blank_append (w s : Str) (hw : Blank w) : trim (w ++ s) = trim s := by
  obtain ⟨w1, w2, h1, h2, hs, ht⟩ := trim_decomp s
  have : w ++ s = (w ++ w1) ++ trim s ++ w2 := by
    conv_lhs => rw [hs]
    simp
  rw [this]
  exact trim_pad (w ++ w1) (trim s) w2 (blank_append hw h1) h2 ht

/-! ## Lemmas on the token stream -/

/-- The token list is what the loop `while (getline(ss, token, ','))` sees:
no token when the call fails, else the token read and the tokens of the rest. -/
theorem getlines_eq_getline (s : Str) :
    getlines s =
      match getline s with
      | none => []
      | some (tok, rest) => tok :: getlines rest := by
  induction s with
  | nil => rfl
  | cons c cs ih =>
    by_cases hc : c = ','
    · simp [getlines, getline, hc]
    · simp only [getlines, getline, hc, if_false]
      rw [ih]
      cases getline cs with
      | none => simp [getlines]
      | some p => rfl

theorem getlines_single {t : Str} (ht : ',' ∉ t) (hne : t ≠ []) : getlines t = [t] := by
  induction t with
  | nil => exact absurd rfl hne
  | cons c cs ih =>
    have hc : c ≠ ',' := fun e => ht (by simp [e])
    have hcs : ',' ∉ cs := fun e => ht (by simp [e])
    cases cs with
    | nil => simp [getlines, hc]
    | cons d ds =>
      have := ih hcs (by simp)
      simp only [getlines, hc, if_false] at this ⊢
      rw [this]

theorem getlines_append_comma {t : Str} (rest : Str) (ht : ',' ∉ t) :
    getlines (t ++ ',' :: rest) = t :: getlines rest := by
  induction t with
  | nil => simp [getlines]
  | cons c cs ih =>
    have hc : c ≠ ',' := fun e => ht (by simp [e])
    have hcs : ',' ∉ cs := fun e => ht (by simp [e])
    have h2 := ih hcs
    rw [List.cons_append]
    simp only [getlines, hc, if_false]
    rw [h2]

/-- The first token of a non-empty stream is the text before the first comma. -/
theorem getlines_head (s : Str) (hne : s ≠ []) :
    ∃ toks, getlines s = s.takeWhile (· ≠ ',') :: toks := by
  induction s with
  | nil => exact absurd rfl hne
  | cons c cs ih =>
    by_cases hc : c = ','
    · exact ⟨getlines cs, by simp [getlines, hc]⟩
    · cases cs with
      | nil => exact ⟨[], by simp [getlines, hc]⟩
      | cons d ds =>
        obtain ⟨toks, h⟩ := ih (by simp)
        refine ⟨toks, ?_⟩
        simp only [getlines, hc, if_false] at h ⊢
        rw [h]
        simp [List.takeWhile, hc]

theorem parseTokens_error {tok : Str} {e : Exn} (toks : List Str) (acc : List MaskEntry)
    (h : parseToken tok = .error e) : parseTokens (tok :: toks) acc = .error e := by
  simp [parseTokens, h]

theorem parseTokens_ok {tok : Str} {en : MaskEntry} (toks : List Str) (acc : List MaskEntry)
    (h : parseToken tok = .ok en) :
    parseTokens (tok :: toks) acc = parseTokens toks (acc ++ [en]) := by
  simp [parseTokens, h]

/-- When every token parses, the loop returns the entries in token order. -/
theorem parseTokens_all_ok (toks : List Str) (ens : List MaskEntry) (acc : List MaskEntry)
    (h : List.Forall₂ (fun tok en => parseToken tok = .ok en) toks ens) :
    parseTokens toks acc = .ok (acc ++ ens) := by
  induction h generalizing acc with
  | nil => simp [parseTokens]
  | cons hd _ ih =>
    rw [parseTokens_ok _ _ hd, ih]
    simp

/-- After tokens that parse, a token that throws ends the loop with its exception. -/
theorem parseTokens_prefix_error (toks : List Str) (ens : List MaskEntry) (tok : Str)
    (e : Exn) (rest : List Str) (acc : List MaskEntry)
    (h : List.Forall₂ (fun tok en => parseToken tok = .ok en) toks ens)
    (he : parseToken tok = .error e) :
    parseTokens (toks ++ tok :: rest) acc = .error e := by
  induction h generalizing acc with
  | nil => exact parseTokens_error _ _ he
  | cons hd _ ih =>
    rw [List.cons_append, parseTokens_ok _ _ hd, ih]

/-! ## Lemmas on decimal numbers -/

theorem digitChar_isDigit : ∀ d, d < 10 → (Nat.digitChar d).isDigit = true := by decide

theorem digitChar_value : ∀ d, d < 10 → (Nat.digitChar d).toNat - '0'.toNat = d := by decide

theorem digitsValue_append_singleton (ds : Str) (c : Char) :
    digitsValue (ds ++ [c]) = digitsValue ds * 10 + (c.toNat - '0'.toNat) := by
  simp [digitsValue, List.foldl_append]

theorem foldl_digits_start (ds : Str) (a : Nat) :
    ds.foldl (fun acc c => acc * 10 + (c.toNat - '0'.toNat)) a =
      a * 10 ^ ds.length + digitsValue ds := by
  induction ds generalizing a with
  | nil => simp [digitsValue]
  | cons c cs ih =>
    simp only [List.foldl_cons, digitsValue, List.length_cons]
    rw [ih, ih (0 * 10 + _)]
    ring

theorem digitsValue_cons (c : Char) (cs : Str) :
    digitsValue (c :: cs) = (c.toNat - '0'.toNat) * 10 ^ cs.length + digitsValue cs := by
  simp only [digitsValue, List.foldl_cons]
  rw [foldl_digits_start]
  simp [digitsValue]

/-- What `Nat.toDigitsCore` puts in front of the digits it was given: digits
only, at least one, whose value is the number. -/
theorem toDigitsCore_spec (fuel n : Nat) (acc : Str) (h : n < fuel) :
    ∃ ds : Str, Nat.toDigitsCore 10 fuel n acc = ds ++ acc ∧ ds ≠ [] ∧
      (∀ c ∈ ds, c.isDigit = true) ∧ digitsValue ds = n := by
  induction fuel generalizing n acc with
  | zero => omega
  | succ fuel ih =>
    have hd : n % 10 < 10 := Nat.mod_lt _ (by decide)
    by_cases hq : n / 10 = 0
    · refine ⟨[Nat.digitChar (n % 10)], ?_, by simp, ?_, ?_⟩
      · simp [Nat.toDigitsCore, hq]
      · intro c hc
        simp at hc; subst hc
        exact digitChar_isDigit _ hd
      · have : n % 10 = n := by omega
        simp only [digitsValue, List.foldl_cons, List.foldl_nil, Nat.zero_mul, Nat.zero_add]
        rw [digitChar_value _ hd, this]
    · have hlt : n / 10 < fuel := by omega
      obtain ⟨ds, hds, hne, hdig, hval⟩ := ih (n / 10) (Nat.digitChar (n % 10) :: acc) hlt
      refine ⟨ds ++ [Nat.digitChar (n % 10)], ?_, by simp, ?_, ?_⟩
      · simp [Nat.toDigitsCore, hq, hds]
      · intro c hc
        rcases List.mem_append.mp hc with h1 | h1
        · exact hdig c h1
        · simp at h1; subst h1
          exact digitChar_isDigit _ hd
      · rw [digitsValue_append_singleton, hval, digitChar_value _ hd]
        omega

/-- The decimal digits of a number: digits only, at least one, whose value
is the number. -/
theorem toDigits_spec (n : Nat) :
    Nat.toDigits 10 n ≠ [] ∧ (∀ c ∈ Nat.toDigits 10 n, c.isDigit = true) ∧
      digitsValue (Nat.toDigits 10 n) = n := by
  obtain ⟨ds, hds, hne, hdig, hval⟩ := toDigitsCore_spec (n + 1) n [] (Nat.lt_succ_self n)
  have : Nat.toDigits 10 n = ds := by simp [Nat.toDigits, hds]
  rw [this]
  exact ⟨hne, hdig, hval⟩

theorem isDigit_not_isBlank {c : Char} (h : c.isDigit = true) : isBlank c = false := by
  cases hb : isBlank c with
  | false => rfl
  | true =>
    simp only [isBlank, Bool.or_eq_true, beq_iff_eq] at hb
    rcases hb with e | e <;> subst e <;> simp [Char.isDigit] at h

theorem isDigit_not_isspace {c : Char} (h : c.isDigit = true) : isspace c = false := by
  cases hb : isspace c with
  | false => rfl
  | true =>
    simp only [isspace, Bool.or_eq_true, beq_iff_eq] at hb
    rcases hb with ((((e | e) | e) | e) | e) | e <;> subst e <;> revert h <;> decide

theorem isDigit_ne {c d : Char} (h : c.isDigit = true) (hd : d.isDigit = false) : c ≠ d := by
  intro e; subst e; rw [h] at hd; cases hd

/-- The model of `stoi` reads a run of digits, whatever follows it when that is no digit. -/
theorem stoi_digits (ds rest : Str) (hne : ds ≠ []) (hdig : ∀ c ∈ ds, c.isDigit = true)
    (hrest : ∀ c, rest.head? = some c → c.isDigit = false)
    (hv : digitsValue ds ≤ 2147483647) :
    stoi (ds ++ rest) = .ok (digitsValue ds : Int) := by
  cases ds with
  | nil => exact absurd rfl hne
  | cons d ds' =>
    have hd : d.isDigit = true := hdig d (by simp)
    have hsp : ((d :: ds') ++ rest).dropWhile isspace = (d :: ds') ++ rest := by
      simp [List.dropWhile, isDigit_not_isspace hd]
    have hm : d ≠ '-' := isDigit_ne hd (by decide)
    have hp : d ≠ '+' := isDigit_ne hd (by decide)
    have hsign : stoiSign ((d :: ds') ++ rest) = (false, (d :: ds') ++ rest) := by
      rw [List.cons_append]
      unfold stoiSign
      split
      · rename_i h; injection h with h1 _; exact absurd h1 hm
      · rename_i h; injection h with h1 _; exact absurd h1 hp
      · rfl
    have htw : ((d :: ds') ++ rest).takeWhile Char.isDigit = d :: ds' := by
      rw [List.takeWhile_append_of_pos hdig]
      cases rest with
      | nil => simp
      | cons r rs =>
        have : r.isDigit = false := hrest r rfl
        simp [List.takeWhile, this]
    unfold stoi
    simp only [hsp, hsign, htw]
    have h0 : (0 : Int) ≤ (digitsValue (d :: ds') : Int) := Int.ofNat_nonneg _
    have h1 : ((digitsValue (d :: ds') : Nat) : Int) ≤ 2147483647 := by exact_mod_cast hv
    simp
    omega

/-! ## Parsing a rendered token -/

theorem not_mem_of_blank {c : Char} {w : Str} (hc : isBlank c = false) (hw : Blank w) :
    c ∉ w := by
  intro h
  rw [hw c h] at hc
  cases hc

theorem not_mem_of_digits {c : Char} {ds : Str} (hc : c.isDigit = false)
    (hd : ∀ x ∈ ds, x.isDigit = true) : c ∉ ds := by
  intro h
  rw [hd c h] at hc
  cases hc

theorem tight_of_digits {ds : Str} (hd : ∀ x ∈ ds, x.isDigit = true) : Tight ds := by
  constructor
  · intro c hc
    exact isDigit_not_isBlank (hd c (List.mem_of_mem_head? hc))
  · intro c hc
    exact isDigit_not_isBlank (hd c (List.mem_of_mem_getLast? hc))

/-- A string that begins like a tight non-empty string and ends like another
one is tight. -/
theorem tight_bracket {a m b : Str} (ha : Tight a) (hb : Tight b) (hane : a ≠ [])
    (hbne : b ≠ []) : Tight (a ++ m ++ b) := by
  constructor
  · intro c hc
    apply ha.1 c
    cases a with
    | nil => exact absurd rfl hane
    | cons x xs => simpa using hc
  · intro c hc
    apply hb.2 c
    rw [List.getLast?_append_of_ne_nil _ hbne] at hc
    exact hc

theorem decimal_spec (n : Int) (h : 0 ≤ n) :
    decimal n ≠ [] ∧ (∀ c ∈ decimal n, c.isDigit = true) ∧
      (digitsValue (decimal n) : Int) = n := by
  obtain ⟨h1, h2, h3⟩ := toDigits_spec n.toNat
  refine ⟨h1, h2, ?_⟩
  unfold decimal
  rw [h3]
  exact Int.toNat_of_nonneg h

theorem stoi_decimal (n : Int) (h0 : 0 ≤ n) (h1 : n ≤ 2147483647) :
    stoi (decimal n) = .ok n := by
  obtain ⟨hne, hdig, hval⟩ := decimal_spec n h0
  have hv : digitsValue (decimal n) ≤ 2147483647 := by
    have : (digitsValue (decimal n) : Int) ≤ 2147483647 := by rw [hval]; exact h1
    exact_mod_cast this
  have := stoi_digits (decimal n) [] hne hdig (by simp) hv
  rw [List.append_nil, hval] at this
  exact this

/-- The range text `start '-' end`, padded inside, is read back as written. -/
theorem parseRange_render (name sR eL : Str) (s e : Int) (hsR : Blank sR) (heL : Blank eL)
    (h0 : 0 ≤ s) (h1 : s ≤ e) (h2 : e ≤ 2147483647) :
    parseRange name (decimal s ++ sR ++ '-' :: (eL ++ decimal e)) (decimal s ++ sR).length =
      .ok { name := name, start_byte := s, end_byte := e } := by
  obtain ⟨hsne, hsdig, _⟩ := decimal_spec s h0
  obtain ⟨hene, hedig, _⟩ := decimal_spec e (le_trans h0 h1)
  have ht : (decimal s ++ sR ++ '-' :: (eL ++ decimal e)).take (decimal s ++ sR).length =
      decimal s ++ sR := by
    rw [List.take_left']; rfl
  have hd : (decimal s ++ sR ++ '-' :: (eL ++ decimal e)).drop ((decimal s ++ sR).length + 1) =
      eL ++ decimal e := by
    have : decimal s ++ sR ++ '-' :: (eL ++ decimal e) =
        (decimal s ++ sR ++ ['-']) ++ (eL ++ decimal e) := by simp
    rw [this, List.drop_left']
    simp only [List.length_append, List.length_singleton]
  have hts : trim (decimal s ++ sR) = decimal s := by
    simpa using trim_pad [] (decimal s) sR blank_nil hsR (tight_of_digits hsdig)
  have hte : trim (eL ++ decimal e) = decimal e := by
    simpa using trim_pad eL (decimal e) [] heL blank_nil (tight_of_digits hedig)
  unfold parseRange
  simp only [ht, hd, hts, hte, stoi_decimal s h0 (le_trans h1 h2),
    stoi_decimal e (le_trans h0 h1) h2]
  have : ¬ (s < 0 ∨ e < s) := by omega
  simp [this]

/-- A rendered token parses to its triple. -/
theorem parseToken_render (p : Padding) (f : MaskEntry) (hp : p.IsBlank) (hf : ValidTriple f) :
    parseToken (renderToken p f) = .ok f := by
  obtain ⟨htL, htR, hnL, hnR, hrL, hrR, hsL, hsR, heL, heR⟩ := hp
  obtain ⟨⟨hnne, hncolon, _, hnt⟩, h0, h1, h2⟩ := hf
  obtain ⟨hsne, hsdig, _⟩ := decimal_spec f.start_byte h0
  obtain ⟨hene, hedig, _⟩ := decimal_spec f.end_byte (le_trans h0 h1)
  -- the range text and the token after trimming
  let range := decimal f.start_byte ++ p.startR ++ '-' :: (p.endL ++ decimal f.end_byte)
  let core := f.name ++ p.nameR ++ ':' :: (p.rangeL ++ p.startL ++ range)
  have hrange : Tight range := by
    have := tight_bracket (m := p.startR ++ '-' :: p.endL) (tight_of_digits hsdig)
      (tight_of_digits hedig) hsne hene
    simpa [range] using this
  have hcore : Tight core := by
    have := tight_bracket
      (m := p.nameR ++ ':' :: (p.rangeL ++ p.startL ++ decimal f.start_byte ++ p.startR ++
        '-' :: p.endL))
      hnt (tight_of_digits hedig) hnne hene
    simpa [core, range] using this
  have hshape : renderToken p f = (p.tokenL ++ p.nameL) ++ core ++ (p.endR ++ p.rangeR ++ p.tokenR) := by
    simp [renderToken, core, range]
  have htrim : trim (renderToken p f) = core := by
    rw [hshape]
    exact trim_pad _ core _ (blank_append htL hnL) (blank_append (blank_append heR hrR) htR) hcore
  have hcolon : ':' ∉ f.name ++ p.nameR := by
    intro h
    rcases List.mem_append.mp h with h | h
    · exact hncolon h
    · exact not_mem_of_blank (by decide) hnR h
  have hfind : find ':' core = some (f.name ++ p.nameR).length :=
    find_append_cons _ hcolon
  have htake : core.take (f.name ++ p.nameR).length = f.name ++ p.nameR := by
    show (f.name ++ p.nameR ++ _).take _ = _
    rw [List.take_left']; rfl
  have hdrop : core.drop ((f.name ++ p.nameR).length + 1) = p.rangeL ++ p.startL ++ range := by
    have : core = (f.name ++ p.nameR ++ [':']) ++ (p.rangeL ++ p.startL ++ range) := by
      simp [core]
    rw [this, List.drop_left']
    simp only [List.length_append, List.length_singleton]
  have hname : trim (f.name ++ p.nameR) = f.name := by
    simpa using trim_pad [] f.name p.nameR blank_nil hnR hnt
  have hrng : trim (p.rangeL ++ p.startL ++ range) = range := by
    simpa using trim_pad (p.rangeL ++ p.startL) range [] (blank_append hrL hsL) blank_nil hrange
  have hdash : '-' ∉ decimal f.start_byte ++ p.startR := by
    intro h
    rcases List.mem_append.mp h with h | h
    · exact not_mem_of_digits (by decide) hsdig h
    · exact not_mem_of_blank (by decide) hsR h
  have hfind2 : find '-' range = some (decimal f.start_byte ++ p.startR).length :=
    find_append_cons _ hdash
  unfold parseToken
  simp only [htrim, hfind, htake, hdrop, hname, hrng, hfind2]
  exact parseRange_render f.name p.startR p.endL f.start_byte f.end_byte hsR heL h0 h1 h2

theorem renderToken_ne_nil (p : Padding) (f : MaskEntry) (hf : ValidTriple f) :
    renderToken p f ≠ [] := by
  obtain ⟨⟨hnne, _⟩, _⟩ := hf
  cases hn : f.name with
  | nil => exact absurd hn hnne
  | cons x xs => simp [renderToken, hn]

theorem renderToken_no_comma (p : Padding) (f : MaskEntry) (hp : p.IsBlank)
    (hf : ValidTriple f) : ',' ∉ renderToken p f := by
  obtain ⟨htL, htR, hnL, hnR, hrL, hrR, hsL, hsR, heL, heR⟩ := hp
  obtain ⟨⟨_, _, hncomma, _⟩, h0, h1, _⟩ := hf
  obtain ⟨_, hsdig, _⟩ := decimal_spec f.start_byte h0
  obtain ⟨_, hedig, _⟩ := decimal_spec f.end_byte (le_trans h0 h1)
  have hb : ∀ {w : Str}, Blank w → ',' ∉ w := fun hw => not_mem_of_blank (by decide) hw
  have hd : ∀ {ds : Str}, (∀ x ∈ ds, x.isDigit = true) → ',' ∉ ds :=
    fun h => not_mem_of_digits (by decide) h
  simp only [renderToken, List.mem_append, List.mem_singleton, not_or]
  refine ⟨⟨hb htL, ⟨⟨⟨hb hnL, hncomma⟩, hb hnR⟩, by decide⟩,
    ⟨hb hrL, ⟨⟨⟨hb hsL, hd hsdig⟩, hb hsR⟩, by decide⟩, ⟨hb heL, hd hedig⟩, hb heR⟩, hb hrR⟩,
    hb htR⟩

theorem intercalate_cons_cons (sep t u : Str) (us : List Str) :
    sep.intercalate (t :: u :: us) = t ++ sep ++ sep.intercalate (u :: us) := by
  simp [List.intercalate]

/-- Tokens without a comma, none of them empty, are the tokens the loop reads
from their join. -/
theorem getlines_intercalate (ts : List Str) (h : ∀ t ∈ ts, ',' ∉ t ∧ t ≠ []) :
    getlines ([','].intercalate ts) = ts := by
  induction ts with
  | nil => rfl
  | cons t us ih =>
    cases us with
    | nil =>
      have := h t (by simp)
      simpa [List.intercalate] using getlines_single this.1 this.2
    | cons u us =>
      rw [intercalate_cons_cons]
      have ht := h t (by simp)
      have := getlines_append_comma ([','].intercalate (u :: us)) ht.1
      simp only [List.append_assoc, List.singleton_append]
      rw [this, ih (fun x hx => h x (List.mem_cons_of_mem _ hx))]

/-- Claim C1. `ParseMaskString` is a left inverse of rendering: for every list
of triples, the empty list and duplicate names included, each with a
non-empty name without `':'` and `','` that neither begins nor ends with a
space or a tab, and with `0 ≤ start ≤ end ≤ 2^31 - 1`, the text made of the
tokens `name ':' start '-' end` in decimal, padded with any spaces and tabs
around the token, the name, the range, the start and the end, and joined
with `','`, parses to exactly that list, in order. -/
theorem ParseMaskString_render (l : List (Padding × MaskEntry))
    (hp : ∀ x ∈ l, x.1.IsBlank) (hf : ∀ x ∈ l, ValidTriple x.2) :
    ParseMaskString (renderMask l) = .ok (l.map fun x => x.2) := by
  have htoks : getlines (renderMask l) = l.map fun x => renderToken x.1 x.2 := by
    apply getlines_intercalate
    intro t ht
    obtain ⟨x, hx, rfl⟩ := List.mem_map.mp ht
    exact ⟨renderToken_no_comma x.1 x.2 (hp x hx) (hf x hx),
      renderToken_ne_nil x.1 x.2 (hf x hx)⟩
  have hall : List.Forall₂ (fun tok en => parseToken tok = .ok en)
      (l.map fun x => renderToken x.1 x.2) (l.map fun x => x.2) := by
    rw [List.forall₂_map_left_iff, List.forall₂_map_right_iff]
    apply List.forall₂_same.mpr
    intro x hx
    exact parseToken_render x.1 x.2 (hp x hx) (hf x hx)
  unfold ParseMaskString
  rw [htoks, parseTokens_all_ok _ _ [] hall]
  rfl

/-- Witness of C1: `"a:0-1,b:2-3"` parses to `[{a,0,1},{b,2,3}]`. -/
theorem ParseMaskString_render_witness :
    ParseMaskString "a:0-1,b:2-3".toList =
      .ok [{ name := "a".toList, start_byte := 0, end_byte := 1 },
           { name := "b".toList, start_byte := 2, end_byte := 3 }] :=
  ParseMaskString_render
    [(noPadding, { name := "a".toList, start_byte := 0, end_byte := 1 }),
     (noPadding, { name := "b".toList, start_byte := 2, end_byte := 3 })]
    (by
      intro x hx
      simp only [List.mem_cons, List.mem_singleton, List.not_mem_nil, or_false] at hx
      rcases hx with rfl | rfl <;>
        simp [Padding.IsBlank, noPadding, blank_nil])
    (by
      intro x hx
      simp only [List.mem_cons, List.mem_singleton, List.not_mem_nil, or_false] at hx
      rcases hx with rfl | rfl <;>
        · refine ⟨⟨by decide, by decide, by decide, ?_, ?_⟩, by decide, by decide, by decide⟩
          · intro c hc; simp at hc; subst hc; decide
          · intro c hc; simp at hc; subst hc; decide)

/-! ## Lemmas on the decoder -/

theorem toInt32_le (n : Nat) : toInt32 n ≤ (n : Int) := by
  unfold toInt32; omega

theorem toInt32_of_lt (n : Nat) (h : n ≤ 2147483647) : toInt32 n = (n : Int) := by
  unfold toInt32; omega

theorem toInt64_mod (bits : Nat) : toInt64 (bits % 2 ^ 64) = toInt64 bits := by
  unfold toInt64
  rw [Nat.mod_mod]

theorem toInt64_of_lt (bits : Nat) (h : bits < 2 ^ 63) : toInt64 bits = (bits : Int) := by
  have h2 : bits % 2 ^ 64 = bits := Nat.mod_eq_of_lt (by omega)
  unfold toInt64
  rw [h2, if_pos h]

theorem toInt64_neg_iff (bits : Nat) (h : bits < 2 ^ 64) : toInt64 bits < 0 ↔ 2 ^ 63 ≤ bits := by
  have h2 : bits % 2 ^ 64 = bits := Nat.mod_eq_of_lt h
  unfold toInt64
  rw [h2]
  split <;> omega

/-- One more unit of fuel changes nothing once `8 - byte_count` is there: the
loop stops on its own test `byte_count < 8`. -/
theorem extractLoop_fuel (payload : List Byte) (end_byte : Int) (big_endian : Bool)
    (fuel : Nat) (i : Int) (byte_count : Nat) (st : ExtractState) (h : 8 ≤ fuel + byte_count) :
    extractLoop payload end_byte big_endian (fuel + 1) i byte_count st =
      extractLoop payload end_byte big_endian fuel i byte_count st := by
  induction fuel generalizing i byte_count st with
  | zero =>
    have : ¬ byte_count < 8 := by omega
    simp [extractLoop, this]
  | succ fuel ih =>
    rw [extractLoop]
    conv_rhs => rw [extractLoop]
    split
    · exact ih _ _ _ (by omega)
    · rfl

theorem extractLoop_fuel_ge (payload : List Byte) (end_byte : Int) (big_endian : Bool)
    (fuel extra : Nat) (i : Int) (byte_count : Nat) (st : ExtractState)
    (h : 8 ≤ fuel + byte_count) :
    extractLoop payload end_byte big_endian (fuel + extra) i byte_count st =
      extractLoop payload end_byte big_endian fuel i byte_count st := by
  induction extra with
  | zero => rfl
  | succ extra ih =>
    rw [← Nat.add_assoc, extractLoop_fuel _ _ _ _ _ _ _ (by omega), ih]

/-- The loop does not depend on `end_byte` beyond the positions it can reach. -/
theorem extractLoop_end_congr (payload : List Byte) (e1 e2 : Int) (big_endian : Bool)
    (fuel : Nat) (i : Int) (byte_count : Nat) (st : ExtractState)
    (h : ∀ j : Int, i ≤ j → j < i + fuel → j < toInt32 payload.length → (j ≤ e1 ↔ j ≤ e2)) :
    extractLoop payload e1 big_endian fuel i byte_count st =
      extractLoop payload e2 big_endian fuel i byte_count st := by
  induction fuel generalizing i byte_count st with
  | zero => rfl
  | succ fuel ih =>
    rw [extractLoop]
    conv_rhs => rw [extractLoop]
    have hc : (i ≤ e1 ∧ i < toInt32 payload.length ∧ byte_count < 8) ↔
        (i ≤ e2 ∧ i < toInt32 payload.length ∧ byte_count < 8) := by
      constructor
      · rintro ⟨a, b, c⟩
        exact ⟨(h i (le_refl _) (by push_cast; omega) b).mp a, b, c⟩
      · rintro ⟨a, b, c⟩
        exact ⟨(h i (le_refl _) (by push_cast; omega) b).mpr a, b, c⟩
    by_cases hcond : i ≤ e1 ∧ i < toInt32 payload.length ∧ byte_count < 8
    · rw [if_pos hcond, if_pos (hc.mp hcond)]
      apply ih
      intro j h1 h2 h3
      exact h j (by omega) (by push_cast; omega) h3
    · rw [if_neg hcond, if_neg (fun hh => hcond (hc.mpr hh))]

/-- Every position the loop reads lies at or after its starting position and
inside the payload. -/
theorem extractLoop_reads (payload : List Byte) (end_byte : Int) (big_endian : Bool)
    (fuel : Nat) (i : Int) (byte_count : Nat) (st : ExtractState) (lo : Int) (hlo : lo ≤ i)
    (hst : ∀ j ∈ st.reads, lo ≤ j ∧ j < (payload.length : Int)) :
    ∀ j ∈ (extractLoop payload end_byte big_endian fuel i byte_count st).reads,
      lo ≤ j ∧ j < (payload.length : Int) := by
  induction fuel generalizing i byte_count st with
  | zero => exact hst
  | succ fuel ih =>
    rw [extractLoop]
    split
    · rename_i hcond
      apply ih _ _ _ (by omega)
      intro j hj
      simp only [List.mem_append, List.mem_singleton] at hj
      rcases hj with hj | hj
      · exact hst j hj
      · subst hj
        exact ⟨hlo, lt_of_lt_of_le hcond.2.1 (toInt32_le _)⟩
    · exact hst

theorem byteAt_nat (payload : List Byte) (a : Nat) : byteAt payload (a : Int) = payload.getD a 0 := by
  simp [byteAt]

theorem bigEndianValue_zero (payload : List Byte) (a : Nat) : bigEndianValue payload a 0 = 0 := rfl

theorem littleEndianValue_zero (payload : List Byte) (a : Nat) :
    littleEndianValue payload a 0 = 0 := rfl

theorem bigEndianValue_succ (payload : List Byte) (a m : Nat) :
    bigEndianValue payload a (m + 1) =
      (payload.getD a 0).val * 256 ^ m + bigEndianValue payload (a + 1) m := by
  unfold bigEndianValue
  rw [List.range_succ_eq_map, List.map_cons, List.sum_cons, List.map_map]
  congr 1
  congr 1
  apply List.map_congr_left
  intro i hi
  have hi' : i < m := List.mem_range.mp hi
  simp only [Function.comp, Nat.succ_eq_add_one]
  have h1 : a + (i + 1) = a + 1 + i := by omega
  have h2 : m + 1 - 1 - (i + 1) = m - 1 - i := by omega
  rw [h1, h2]

theorem littleEndianValue_succ (payload : List Byte) (a m : Nat) :
    littleEndianValue payload a (m + 1) =
      (payload.getD a 0).val + 256 * littleEndianValue payload (a + 1) m := by
  unfold littleEndianValue
  rw [List.range_succ_eq_map, List.map_cons, List.sum_cons, List.map_map, ← List.sum_map_mul_left]
  simp only [Nat.add_zero, Nat.pow_zero, Nat.mul_one]
  congr 1
  congr 1
  apply List.map_congr_left
  intro i _
  simp only [Function.comp, Nat.succ_eq_add_one]
  have h1 : a + (i + 1) = a + 1 + i := by omega
  rw [h1, Nat.pow_succ]
  ring

theorem bigEndianValue_lt (payload : List Byte) (a m : Nat) :
    bigEndianValue payload a m < 256 ^ m := by
  induction m generalizing a with
  | zero => simp [bigEndianValue_zero]
  | succ m ih =>
    rw [bigEndianValue_succ, Nat.pow_succ]
    have h1 := ih (a + 1)
    have h2 : (payload.getD a 0).val < 256 := (payload.getD a 0).isLt
    nlinarith

theorem littleEndianValue_lt (payload : List Byte) (a m : Nat) :
    littleEndianValue payload a m < 256 ^ m := by
  induction m generalizing a with
  | zero => simp [littleEndianValue_zero]
  | succ m ih =>
    rw [littleEndianValue_succ, Nat.pow_succ]
    have h1 := ih (a + 1)
    have h2 : (payload.getD a 0).val < 256 := (payload.getD a 0).isLt
    omega

/-- Big-endian run of the loop over `m` bytes that are all there. -/
theorem extractLoop_big (payload : List Byte) (hlen : payload.length ≤ 2147483647)
    (m fuel a byte_count : Nat) (i end_byte : Int) (st : ExtractState)
    (hi : i = (a : Int)) (hend : end_byte = (a : Int) + (m : Int) - 1)
    (ha : a + m ≤ payload.length) (hf : m ≤ fuel) (hbc : byte_count + m ≤ 8) :
    (extractLoop payload end_byte true fuel i byte_count st).result % 2 ^ 64 =
      (st.result * 256 ^ m + bigEndianValue payload a m) % 2 ^ 64 := by
  induction m generalizing fuel a byte_count i end_byte st with
  | zero =>
    have hst : extractLoop payload end_byte true fuel i byte_count st = st := by
      cases fuel with
      | zero => rfl
      | succ fuel =>
        have : ¬ (i ≤ end_byte ∧ i < toInt32 payload.length ∧ byte_count < 8) := by
          rintro ⟨h, _⟩; omega
        simp [extractLoop, this]
    rw [hst, bigEndianValue_zero]
    simp
  | succ m ih =>
    obtain ⟨fuel, rfl⟩ : ∃ f, fuel = f + 1 := ⟨fuel - 1, by omega⟩
    have hcond : i ≤ end_byte ∧ i < toInt32 payload.length ∧ byte_count < 8 := by
      rw [toInt32_of_lt _ hlen]
      refine ⟨?_, ?_, ?_⟩ <;> push_cast at hend ⊢ <;> omega
    rw [extractLoop, if_pos hcond]
    simp only [if_true]
    rw [ih fuel (a + 1) (byte_count + 1) (i + 1) end_byte _ (by push_cast; omega)
      (by push_cast at hend ⊢; omega) (by omega) (by omega) (by omega)]
    rw [hi, byteAt_nat, bigEndianValue_succ]
    have hb : (payload.getD a 0).val < 2 ^ 8 := (payload.getD a 0).isLt
    have hor : st.result <<< 8 ||| (payload.getD a 0).val =
        st.result * 256 + (payload.getD a 0).val := by
      rw [Nat.shiftLeft_eq, Nat.mul_comm, ← Nat.mul_add_lt_is_or hb]
    simp only [hor]
    rw [Nat.add_mod, Nat.mul_mod, Nat.mod_mod, ← Nat.mul_mod, ← Nat.add_mod]
    congr 1
    rw [Nat.pow_succ]
    ring

/-- Little-endian run of the loop over `m` bytes that are all there. -/
theorem extractLoop_little (payload : List Byte) (hlen : payload.length ≤ 2147483647)
    (m fuel a byte_count : Nat) (i end_byte : Int) (st : ExtractState)
    (hi : i = (a : Int)) (hend : end_byte = (a : Int) + (m : Int) - 1)
    (ha : a + m ≤ payload.length) (hf : m ≤ fuel) (hbc : byte_count + m ≤ 8)
    (hst : st.result < 256 ^ byte_count) :
    (extractLoop payload end_byte false fuel i byte_count st).result =
      st.result + 256 ^ byte_count * littleEndianValue payload a m := by
  induction m generalizing fuel a byte_count i end_byte st with
  | zero =>
    have hst : extractLoop payload end_byte false fuel i byte_count st = st := by
      cases fuel with
      | zero => rfl
      | succ fuel =>
        have : ¬ (i ≤ end_byte ∧ i < toInt32 payload.length ∧ byte_count < 8) := by
          rintro ⟨h, _⟩; omega
        simp [extractLoop, this]
    rw [hst, littleEndianValue_zero]
    simp
  | succ m ih =>
    obtain ⟨fuel, rfl⟩ : ∃ f, fuel = f + 1 := ⟨fuel - 1, by omega⟩
    have hcond : i ≤ end_byte ∧ i < toInt32 payload.length ∧ byte_count < 8 := by
      rw [toInt32_of_lt _ hlen]
      refine ⟨?_, ?_, ?_⟩ <;> push_cast at hend ⊢ <;> omega
    have hb : (payload.getD a 0).val < 256 := (payload.getD a 0).isLt
    have hpow : (256 : Nat) ^ byte_count = 2 ^ (byte_count * 8) := by
      rw [Nat.mul_comm, Nat.pow_mul]
    have hor : st.result ||| (payload.getD a 0).val <<< (byte_count * 8) =
        st.result + 256 ^ byte_count * (payload.getD a 0).val := by
      rw [Nat.shiftLeft_eq, Nat.lor_comm, Nat.mul_comm, ← hpow, hpow,
        ← Nat.mul_add_lt_is_or (hpow ▸ hst), ← hpow, Nat.add_comm]
    have hle : (256 : Nat) ^ (byte_count + 1) ≤ 2 ^ 64 := by
      have : (256 : Nat) ^ (byte_count + 1) ≤ 256 ^ 8 :=
        Nat.pow_le_pow_right (by norm_num) (by omega)
      calc (256 : Nat) ^ (byte_count + 1) ≤ 256 ^ 8 := this
        _ = 2 ^ 64 := by norm_num
    have hnew : st.result + 256 ^ byte_count * (payload.getD a 0).val <
        256 ^ (byte_count + 1) := by
      rw [Nat.pow_succ]; nlinarith
    rw [extractLoop, if_pos hcond]
    simp only [Bool.false_eq_true, if_false]
    rw [hi, byteAt_nat, hor, Nat.mod_eq_of_lt (lt_of_lt_of_le hnew hle)]
    rw [ih fuel (a + 1) (byte_count + 1) ((a : Int) + 1) end_byte _ (by push_cast; omega)
      (by push_cast at hend ⊢; omega) (by omega) (by omega) (by omega) hnew]
    rw [littleEndianValue_succ, Nat.pow_succ]
    ring

/-! ## The decoder on a range inside the payload -/

/-- Big-endian decoding equals the positional reference on every payload
whose length fits an `int`: for `0 ≤ start ≤ end < len` and
`k = end - start + 1 ≤ 8` the result is the 64-bit two's-complement reading of
the sum of `payload[start + i] * 256 ^ (k - 1 - i)`; it is that sum for
`k ≤ 7`, and for `k = 8` it is negative exactly when `payload[start] ≥ 0x80`. -/
theorem big_endian_positional (payload : List Byte) (start_byte end_byte : Int)
    (hlen : payload.length ≤ 2147483647)
    (h0 : 0 ≤ start_byte) (h1 : start_byte ≤ end_byte) (h2 : end_byte < payload.length)
    (hk : end_byte - start_byte + 1 ≤ 8) :
    ExtractBytesToInt payload start_byte end_byte true =
        toInt64 (bigEndianValue payload start_byte.toNat (end_byte - start_byte + 1).toNat) ∧
      (end_byte - start_byte + 1 ≤ 7 →
        ExtractBytesToInt payload start_byte end_byte true =
          (bigEndianValue payload start_byte.toNat (end_byte - start_byte + 1).toNat : Int)) ∧
      (end_byte - start_byte + 1 = 8 →
        (ExtractBytesToInt payload start_byte end_byte true < 0 ↔
          128 ≤ (payload.getD start_byte.toNat 0).val)) := by
  obtain ⟨a, rfl⟩ := Int.eq_ofNat_of_zero_le h0
  obtain ⟨m, hm⟩ := Int.eq_ofNat_of_zero_le (show 0 ≤ end_byte - (a : Int) + 1 by omega)
  have hrun := extractLoop_big payload hlen m 8 a 0 (a : Int) end_byte { result := 0, reads := [] }
    rfl (by omega) (by omega) (by omega) (by omega)
  have hval : ExtractBytesToInt payload (a : Int) end_byte true =
      toInt64 (bigEndianValue payload a m) := by
    unfold ExtractBytesToInt extractRun
    rw [← toInt64_mod, hrun]
    simp only [Nat.zero_mul, Nat.zero_add]
    rw [toInt64_mod]
  have hlt := bigEndianValue_lt payload a m
  rw [hm]
  simp only [Int.toNat_ofNat]
  refine ⟨hval, ?_, ?_⟩
  · intro h7
    have hm7 : m ≤ 7 := by omega
    have : (256 : Nat) ^ m ≤ 256 ^ 7 := Nat.pow_le_pow_right (by norm_num) hm7
    have h63 : bigEndianValue payload a m < 2 ^ 63 := by
      calc bigEndianValue payload a m < 256 ^ m := hlt
        _ ≤ 256 ^ 7 := this
        _ < 2 ^ 63 := by norm_num
    rw [hval, toInt64_of_lt _ h63]
  · intro h8
    have hm8 : m = 8 := by omega
    subst hm8
    rw [hval, toInt64_neg_iff _ (by simpa using hlt), bigEndianValue_succ]
    have h7 := bigEndianValue_lt payload (a + 1) 7
    have hb : (payload.getD a 0).val < 256 := (payload.getD a 0).isLt
    norm_num at h7 ⊢
    omega

/-- Little-endian decoding equals the positional reference on every payload
whose length fits an `int`: for `0 ≤ start ≤ end < len` and
`k = end - start + 1 ≤ 8` the result is the 64-bit two's-complement reading of
the sum of `payload[start + i] * 256 ^ i`. -/
theorem little_endian_positional (payload : List Byte) (start_byte end_byte : Int)
    (hlen : payload.length ≤ 2147483647)
    (h0 : 0 ≤ start_byte) (h1 : start_byte ≤ end_byte) (h2 : end_byte < payload.length)
    (hk : end_byte - start_byte + 1 ≤ 8) :
    ExtractBytesToInt payload start_byte end_byte false =
      toInt64 (littleEndianValue payload start_byte.toNat (end_byte - start_byte + 1).toNat) := by
  obtain ⟨a, rfl⟩ := Int.eq_ofNat_of_zero_le h0
  obtain ⟨m, hm⟩ := Int.eq_ofNat_of_zero_le (show 0 ≤ end_byte - (a : Int) + 1 by omega)
  have hrun := extractLoop_little payload hlen m 8 a 0 (a : Int) end_byte
    { result := 0, reads := [] } rfl (by omega) (by omega) (by omega) (by omega) (by norm_num)
  rw [hm]
  simp only [Int.toNat_ofNat]
  unfold ExtractBytesToInt extractRun
  rw [hrun]
  simp

/-! ## Claims on the decoder -/

theorem extractRun_huge (b : Byte) (end_byte : Int) (big_endian : Bool) :
    extractRun (List.replicate 2147483648 b) 0 end_byte big_endian =
      { result := 0, reads := [] } := by
  unfold extractRun
  rw [extractLoop]
  have : ¬ ((0 : Int) ≤ end_byte ∧
      (0 : Int) < toInt32 (List.replicate 2147483648 b).length ∧ 0 < 8) := by
    rw [List.length_replicate]
    rintro ⟨_, h, _⟩
    revert h
    decide
  rw [if_neg this]

theorem getD_replicate_zero (n : Nat) (b : Byte) : (List.replicate (n + 1) b).getD 0 0 = b := by
  simp [List.replicate_succ]

/-- Claim C2, at the failing input: on a payload of `2^31` bytes, all `0x01`,
the big-endian decoding of the range 0-0 is `0`, while the positional
reference of that one-byte field is `1`: `(int)payload.length()` is negative
there and the loop never runs. -/
theorem ExtractBytesToInt_big_endian_huge_payload :
    ExtractBytesToInt (List.replicate 2147483648 1) 0 0 true = 0 ∧
      toInt64 (bigEndianValue (List.replicate 2147483648 1) 0 1) = 1 := by
  constructor
  · unfold ExtractBytesToInt
    rw [extractRun_huge]
    decide
  · have : bigEndianValue (List.replicate 2147483648 1) 0 1 = 1 := by
      rw [bigEndianValue_succ, bigEndianValue_zero, getD_replicate_zero 2147483647 1]
      rfl
    rw [this]
    decide

/-- Claim C3, at the failing input: on a payload of `2^31` bytes, all `0x01`,
the little-endian decoding of the range 0-0 is `0`, while the positional
reference of that one-byte field is `1`: `(int)payload.length()` is negative
there and the loop never runs. -/
theorem ExtractBytesToInt_little_endian_huge_payload :
    ExtractBytesToInt (List.replicate 2147483648 1) 0 0 false = 0 ∧
      toInt64 (littleEndianValue (List.replicate 2147483648 1) 0 1) = 1 := by
  constructor
  · unfold ExtractBytesToInt
    rw [extractRun_huge]
    decide
  · have : littleEndianValue (List.replicate 2147483648 1) 0 1 = 1 := by
      rw [littleEndianValue_succ, littleEndianValue_zero, getD_replicate_zero 2147483647 1]
      rfl
    rw [this]
    decide

/-- Claim C5. The decoder clamps the range to the payload and to 8 bytes: for
every payload, every `start ≥ 0`, every `end` and either endianness,
`ExtractBytesToInt(payload, start, end, be)` equals
`ExtractBytesToInt(payload, start, min(end, len(payload) - 1, start + 7), be)`.
In particular a range of 10 bytes decodes like its first 8 bytes, and a range
that runs past the end of the payload decodes like the range that stops at
the last byte. -/
theorem ExtractBytesToInt_clamp (payload : List Byte) (start_byte end_byte : Int)
    (big_endian : Bool) (_h0 : 0 ≤ start_byte) :
    ExtractBytesToInt payload start_byte end_byte big_endian =
        ExtractBytesToInt payload start_byte
          (min end_byte (min ((payload.length : Int) - 1) (start_byte + 7))) big_endian ∧
      ExtractBytesToInt payload start_byte (start_byte + 9) big_endian =
        ExtractBytesToInt payload start_byte (start_byte + 7) big_endian ∧
      ((payload.length : Int) - 1 ≤ end_byte →
        ExtractBytesToInt payload start_byte end_byte big_endian =
          ExtractBytesToInt payload start_byte ((payload.length : Int) - 1) big_endian) := by
  have hl := toInt32_le payload.length
  refine ⟨?_, ?_, ?_⟩
  · unfold ExtractBytesToInt extractRun
    rw [extractLoop_end_congr payload end_byte
      (min end_byte (min ((payload.length : Int) - 1) (start_byte + 7)))]
    intro j _ h2 h3
    simp only [le_min_iff]
    constructor
    · intro h; exact ⟨h, by omega, by omega⟩
    · intro h; exact h.1
  · unfold ExtractBytesToInt extractRun
    rw [extractLoop_end_congr payload (start_byte + 9) (start_byte + 7)]
    intro j _ h2 _
    constructor <;> intro _ <;> omega
  · intro hend
    unfold ExtractBytesToInt extractRun
    rw [extractLoop_end_congr payload end_byte ((payload.length : Int) - 1)]
    intro j _ _ h3
    constructor <;> intro _ <;> omega

/-- Witness of C5: on a payload of 10 bytes the range 0-9 decodes like the
range 0-7. -/
theorem ExtractBytesToInt_clamp_witness :
    ExtractBytesToInt [1, 2, 3, 4, 5, 6, 7, 8, 9, 10] 0 9 true =
        ExtractBytesToInt [1, 2, 3, 4, 5, 6, 7, 8, 9, 10] 0 7 true ∧
      ExtractBytesToInt [1, 2, 3, 4, 5, 6, 7, 8, 9, 10] 0 9 true =
        ExtractBytesToInt [1, 2, 3, 4, 5, 6, 7, 8, 9, 10] 0 7 true ∧
      ((9 : Int) ≤ 9 →
        ExtractBytesToInt [1, 2, 3, 4, 5, 6, 7, 8, 9, 10] 0 9 true =
          ExtractBytesToInt [1, 2, 3, 4, 5, 6, 7, 8, 9, 10] 0 9 true) :=
  ExtractBytesToInt_clamp [1, 2, 3, 4, 5, 6, 7, 8, 9, 10] 0 9 true (by decide)

/-- Claim C6. The decoder returns 0 when no byte is consumed: for every
payload, every `start`, `end` and either endianness, if `start > end` or
`start > len(payload) - 1` the result is `0`; so it is for every range with
`start ≥ 0` against an empty payload. -/
theorem ExtractBytesToInt_no_byte (payload : List Byte) (start_byte end_byte : Int)
    (big_endian : Bool) :
    (start_byte > end_byte ∨ start_byte > (payload.length : Int) - 1 →
      ExtractBytesToInt payload start_byte end_byte big_endian = 0) ∧
      (0 ≤ start_byte → ExtractBytesToInt [] start_byte end_byte big_endian = 0) := by
  have key : ∀ p : List Byte, start_byte > end_byte ∨ start_byte > (p.length : Int) - 1 →
      ExtractBytesToInt p start_byte end_byte big_endian = 0 := by
    intro p h
    have hl := toInt32_le p.length
    have hcond : ¬ (start_byte ≤ end_byte ∧ start_byte < toInt32 p.length ∧ 0 < 8) := by
      rintro ⟨h1, h2, _⟩
      rcases h with h | h <;> omega
    unfold ExtractBytesToInt extractRun
    rw [extractLoop, if_neg hcond]
    decide
  refine ⟨key payload, fun h0 => key [] (Or.inr ?_)⟩
  simp only [List.length_nil, Nat.cast_zero]
  omega

/-- Witness of C6: a range that starts after the last byte of the payload. -/
theorem ExtractBytesToInt_no_byte_witness : ExtractBytesToInt [1, 2] 2 5 true = 0 :=
  (ExtractBytesToInt_no_byte [1, 2] 2 5 true).1 (Or.inr (by decide))

/-- Claim C7, as stated, fails: with `start = -1` the decoder evaluates
`payload[-1]`, which is no index of the payload. -/
theorem ExtractBytesToInt_reads_negative_start :
    ¬ ∀ i ∈ ExtractBytesToIntReads [1] (-1) 0 true,
        0 ≤ i ∧ i < (([1] : List Byte).length : Int) := by
  decide

/-- Claim C7, amended: for every payload, every `start ≥ 0`, every `end` and
either endianness, the decoder returns (its loop ends within 8 iterations,
more fuel changes nothing) and every position it reads is an index of the
payload. -/
theorem ExtractBytesToInt_reads_valid (payload : List Byte) (start_byte end_byte : Int)
    (big_endian : Bool) (h0 : 0 ≤ start_byte) :
    (∀ fuel, 8 ≤ fuel →
      extractLoop payload end_byte big_endian fuel start_byte 0 { result := 0, reads := [] } =
        extractRun payload start_byte end_byte big_endian) ∧
      ∀ i ∈ ExtractBytesToIntReads payload start_byte end_byte big_endian,
        0 ≤ i ∧ i < (payload.length : Int) := by
  constructor
  · intro fuel hf
    obtain ⟨extra, rfl⟩ : ∃ e, fuel = 8 + e := ⟨fuel - 8, by omega⟩
    exact extractLoop_fuel_ge payload end_byte big_endian 8 extra start_byte 0 _ (by omega)
  · intro i hi
    have := extractLoop_reads payload end_byte big_endian 8 start_byte 0
      { result := 0, reads := [] } start_byte (le_refl _) (by simp) i hi
    exact ⟨by omega, this.2⟩

/-- Witness of C7 amended: a range that runs past a two-byte payload. -/
theorem ExtractBytesToInt_reads_valid_witness :
    (∀ fuel, 8 ≤ fuel →
      extractLoop [1, 2] 5 true fuel 0 0 { result := 0, reads := [] } =
        extractRun [1, 2] 0 5 true) ∧
      ∀ i ∈ ExtractBytesToIntReads [1, 2] 0 5 true,
        0 ≤ i ∧ i < (([1, 2] : List Byte).length : Int) :=
  ExtractBytesToInt_reads_valid [1, 2] 0 5 true (by decide)

/-! ## Claims on the parser's errors and on the row driver -/

/-- Claim C4. Row output is the order-preserving image of the parsed fields: for
a row with non-null mask and payload whose mask parses to `fs`, whose
endianness resolves to `be`, and for which the capacity check passes, the
row is not null and its entries are exactly
`[(f.name, ExtractBytesToInt(payload, f.start_byte, f.end_byte, be)) for f in fs]`,
as many pairs as fields, in field order. -/
theorem processRow_entries (host : Host) (has_endianness_param : Bool) (total_entries : Nat)
    (row : Row) (mask : Str) (payload : List Byte) (fs : List MaskEntry) (be : Bool)
    (hmask : row.mask = some mask) (hpayload : row.payload = some payload)
    (hparse : ParseMaskString mask = .ok fs)
    (hbe : resolveEndianness has_endianness_param row.endian = .ok be)
    (hcap : total_entries + fs.length ≤ host.STANDARD_VECTOR_SIZE) :
    processRow host has_endianness_param total_entries row =
        .ok { is_null := false, offset := total_entries, length := fs.length,
              entries := fs.map fun f =>
                (f.name, ExtractBytesToInt payload f.start_byte f.end_byte be) } ∧
      (fs.map fun f =>
        (f.name, ExtractBytesToInt payload f.start_byte f.end_byte be)).length = fs.length := by
  constructor
  · have hc : ¬ total_entries + fs.length > host.STANDARD_VECTOR_SIZE := by omega
    simp [processRow, hmask, hpayload, hparse, hbe, hc, decodeEntries]
  · simp

/-- Witness of C4: the mask `"a:0-1,b:2-3"` on the payload `01 02 03 04`
gives `a = 0x0102` and `b = 0x0304`. -/
theorem processRow_entries_witness :
    processRow defaultHost false 0
        { mask := some "a:0-1,b:2-3".toList, payload := some [1, 2, 3, 4], endian := none } =
        .ok { is_null := false, offset := 0, length := 2,
              entries := [("a".toList, 258), ("b".toList, 772)] } ∧
      ([("a".toList, (258 : Int)), ("b".toList, 772)] : List (Str × Int)).length = 2 :=
  processRow_entries defaultHost false 0
    { mask := some "a:0-1,b:2-3".toList, payload := some [1, 2, 3, 4], endian := none }
    "a:0-1,b:2-3".toList [1, 2, 3, 4]
    [{ name := "a".toList, start_byte := 0, end_byte := 1 },
     { name := "b".toList, start_byte := 2, end_byte := 3 }] true rfl rfl rfl rfl (by decide)

theorem parseToken_of_single_ok {w : Str} {f : MaskEntry} (hw : ',' ∉ w)
    (h : ParseMaskString w = .ok [f]) : w ≠ [] ∧ parseToken w = .ok f := by
  have hne : w ≠ [] := by
    intro e; subst e
    simp [ParseMaskString, getlines, parseTokens] at h
  refine ⟨hne, ?_⟩
  unfold ParseMaskString at h
  rw [getlines_single hw hne] at h
  cases hp : parseToken w with
  | error e => simp [parseTokens, hp] at h
  | ok en =>
    simp [parseTokens, hp] at h
    rw [h]

theorem parseToken_of_single_error {t : Str} {e : Exn} (ht : ',' ∉ t)
    (h : ParseMaskString t = .error e) : t ≠ [] ∧ parseToken t = .error e := by
  have hne : t ≠ [] := by
    intro e; subst e
    simp [ParseMaskString, getlines, parseTokens] at h
  refine ⟨hne, ?_⟩
  unfold ParseMaskString at h
  rw [getlines_single ht hne] at h
  cases hp : parseToken t with
  | error e2 =>
    simp [parseTokens, hp] at h
    rw [h]
  | ok en => simp [parseTokens, hp] at h

theorem getlines_commaTerminated (ws : List Str) (tail : Str) (h : ∀ w ∈ ws, ',' ∉ w) :
    getlines (commaTerminated ws ++ tail) = ws ++ getlines tail := by
  induction ws with
  | nil => rfl
  | cons w ws ih =>
    have hw := h w (by simp)
    have := getlines_append_comma (commaTerminated ws ++ tail) hw
    simp only [commaTerminated, List.append_assoc, List.cons_append] at this ⊢
    rw [this, ih (fun x hx => h x (List.mem_cons_of_mem _ hx))]

/-- Claim C8. `ParseMaskString` is fail-fast on the first malformed token: for a
mask `w1,...,wn,t`, followed or not by `','` and any further text, where
each `wi` has no `','` and parses alone to exactly one entry and `t` has no
`','` and fails alone with the exception `E`, the whole mask fails with the
same `E`, whatever follows `t`; no list is returned. -/
theorem ParseMaskString_fail_fast (ws : List Str) (t rest : Str) (E : Exn)
    (hws : ∀ w ∈ ws, ',' ∉ w ∧ ∃ f, ParseMaskString w = .ok [f])
    (ht : ',' ∉ t) (hE : ParseMaskString t = .error E) :
    ParseMaskString (commaTerminated ws ++ t) = .error E ∧
      ParseMaskString (commaTerminated ws ++ t ++ ',' :: rest) = .error E := by
  obtain ⟨htne, hte⟩ := parseToken_of_single_error ht hE
  have hall : ∃ ens, List.Forall₂ (fun tok en => parseToken tok = .ok en) ws ens := by
    induction ws with
    | nil => exact ⟨[], List.Forall₂.nil⟩
    | cons w ws ih =>
      obtain ⟨ens, hens⟩ := ih (fun x hx => hws x (List.mem_cons_of_mem _ hx))
      obtain ⟨hw, f, hf⟩ := hws w (by simp)
      exact ⟨f :: ens, List.Forall₂.cons (parseToken_of_single_ok hw hf).2 hens⟩
  obtain ⟨ens, hens⟩ := hall
  have hcomma : ∀ w ∈ ws, ',' ∉ w := fun w hw => (hws w hw).1
  constructor
  · unfold ParseMaskString
    rw [getlines_commaTerminated ws t hcomma, getlines_single ht htne]
    exact parseTokens_prefix_error ws ens t E [] [] hens hte
  · unfold ParseMaskString
    rw [List.append_assoc, getlines_commaTerminated ws _ hcomma, getlines_append_comma rest ht]
    exact parseTokens_prefix_error ws ens t E _ [] hens hte

/-- Witness of C8: `"a:0-1,bad"` and `"a:0-1,bad,c:x"` fail like `"bad"`. -/
theorem ParseMaskString_fail_fast_witness :
    ParseMaskString (commaTerminated ["a:0-1".toList] ++ "bad".toList) =
        .error (.InvalidInputException (msgMissingColon "bad".toList)) ∧
      ParseMaskString (commaTerminated ["a:0-1".toList] ++ "bad".toList ++ ',' :: "c:x".toList) =
        .error (.InvalidInputException (msgMissingColon "bad".toList)) :=
  ParseMaskString_fail_fast ["a:0-1".toList] "bad".toList "c:x".toList
    (.InvalidInputException (msgMissingColon "bad".toList))
    (by
      intro w hw
      simp only [List.mem_singleton] at hw
      subst hw
      exact ⟨by decide, ⟨{ name := "a".toList, start_byte := 0, end_byte := 1 }, rfl⟩⟩)
    (by decide) rfl

theorem getlines_firstToken (s : Str) (hne : s ≠ []) :
    ∃ toks, getlines s = firstToken s :: toks :=
  getlines_head s hne

theorem mem_of_mem_trim {c : Char} {s : Str} (h : c ∈ trim s) : c ∈ s := by
  obtain ⟨w1, w2, _, _, hs, _⟩ := trim_decomp s
  rw [hs]
  simp [h]

theorem mem_trim_of_mem {c : Char} {s : Str} (hc : isBlank c = false) (h : c ∈ s) :
    c ∈ trim s := by
  obtain ⟨w1, w2, h1, h2, hs, _⟩ := trim_decomp s
  rw [hs] at h
  simp only [List.mem_append] at h
  rcases h with (h | h) | h
  · exact absurd h (not_mem_of_blank hc h1)
  · exact h
  · exact absurd h (not_mem_of_blank hc h2)

theorem afterFirst_append_cons {c : Char} {a : Str} (b : Str) (h : c ∉ a) :
    afterFirst c (a ++ c :: b) = b := by
  induction a with
  | nil => simp [afterFirst, List.dropWhile]
  | cons x xs ih =>
    have hx : x ≠ c := fun e => h (by simp [e])
    have hxs : c ∉ xs := fun e => h (by simp [e])
    have := ih hxs
    simp only [afterFirst, List.cons_append, List.dropWhile, ne_eq, hx, not_false_eq_true,
      decide_True] at this ⊢
    exact this

/-- Claim C9. Missing colon: for every non-empty mask whose first
comma-separated token has no `':'`, `ParseMaskString` fails with the
exception of line 33, whose message is the fixed text followed by that
token trimmed of leading and trailing spaces and tabs. -/
theorem ParseMaskString_missing_colon (s : Str) (hne : s ≠ [])
    (h : ':' ∉ firstToken s) :
    ParseMaskString s =
      .error (.InvalidInputException
        ("Invalid mask format. Expected 'name:start-end', got: ".toList ++
          trim (firstToken s))) := by
  obtain ⟨toks, htoks⟩ := getlines_firstToken s hne
  have hfind : find ':' (trim (firstToken s)) = none :=
    find_eq_none (fun hm => h (mem_of_mem_trim hm))
  have htok : parseToken (firstToken s) =
      .error (.InvalidInputException (msgMissingColon (trim (firstToken s)))) := by
    simp [parseToken, hfind]
  unfold ParseMaskString
  rw [htoks, parseTokens_error toks [] htok]
  rfl

/-- Witness of C9: the mask `"bad"`. -/
theorem ParseMaskString_missing_colon_witness :
    ParseMaskString "bad".toList =
      .error (.InvalidInputException
        "Invalid mask format. Expected 'name:start-end', got: bad".toList) :=
  ParseMaskString_missing_colon "bad".toList (by decide) (by decide)

/-- Claim C10. Missing dash: for every mask whose first comma-separated token
has a `':'` and no `'-'` after its first `':'`, `ParseMaskString` fails with
the exception of line 47, whose message is the fixed text followed by the
text after that `':'`, trimmed of leading and trailing spaces and tabs. -/
theorem ParseMaskString_missing_dash (s : Str)
    (hcolon : ':' ∈ firstToken s) (hdash : '-' ∉ afterFirst ':' (firstToken s)) :
    ParseMaskString s =
      .error (.InvalidInputException
        ("Invalid range format. Expected 'start-end', got: ".toList ++
          trim (afterFirst ':' (firstToken s)))) := by
  have hne : s ≠ [] := by
    intro e; subst e
    simp [firstToken] at hcolon
  obtain ⟨toks, htoks⟩ := getlines_firstToken s hne
  obtain ⟨w1, w2, hw1, hw2, hs, _⟩ := trim_decomp (firstToken s)
  have hmem : ':' ∈ trim (firstToken s) := mem_trim_of_mem (by decide) hcolon
  obtain ⟨n, hn⟩ := find_isSome_of_mem hmem
  obtain ⟨hnot, hsplit⟩ := find_some_split hn
  -- the text after the colon, in the raw token and in the trimmed one
  have hafter : afterFirst ':' (firstToken s) = (trim (firstToken s)).drop (n + 1) ++ w2 := by
    have hshape : firstToken s =
        (w1 ++ (trim (firstToken s)).take n) ++
          ':' :: ((trim (firstToken s)).drop (n + 1) ++ w2) := by
      conv_lhs => rw [hs, hsplit]
      simp
    have hno : ':' ∉ w1 ++ (trim (firstToken s)).take n := by
      intro hm
      rcases List.mem_append.mp hm with hm | hm
      · exact not_mem_of_blank (by decide) hw1 hm
      · exact hnot hm
    conv_lhs => rw [hshape]
    exact afterFirst_append_cons _ hno
  have hrange : trim (afterFirst ':' (firstToken s)) =
      trim ((trim (firstToken s)).drop (n + 1)) := by
    rw [hafter, trim_append_blank _ _ hw2]
  have hfind : find '-' (trim ((trim (firstToken s)).drop (n + 1))) = none := by
    apply find_eq_none
    intro hm
    apply hdash
    rw [hafter]
    exact List.mem_append_left _ (mem_of_mem_trim hm)
  have htok : parseToken (firstToken s) =
      .error (.InvalidInputException
        (msgMissingDash (trim ((trim (firstToken s)).drop (n + 1))))) := by
    simp [parseToken, hn, hfind]
  unfold ParseMaskString
  rw [htoks, parseTokens_error toks [] htok, hrange]
  rfl

/-- Witness of C10: the mask `"a:0"`. -/
theorem ParseMaskString_missing_dash_witness :
    ParseMaskString "a:0".toList =
      .error (.InvalidInputException
        "Invalid range format. Expected 'start-end', got: 0".toList) :=
  ParseMaskString_missing_dash "a:0".toList (by decide) (by decide)

/-! ## The parts of a token -/

theorem beforeFirst_append_cons {c : Char} {a : Str} (b : Str) (h : c ∉ a) :
    beforeFirst c (a ++ c :: b) = a := by
  induction a with
  | nil => simp [beforeFirst, List.takeWhile]
  | cons x xs ih =>
    have hx : x ≠ c := fun e => h (by simp [e])
    have hxs : c ∉ xs := fun e => h (by simp [e])
    have := ih hxs
    simp only [beforeFirst, List.cons_append, List.takeWhile, ne_eq, hx, not_false_eq_true,
      decide_True] at this ⊢
    exact congrArg (x :: ·) this

/-- Cutting at the first `c` commutes with trimming, up to trimming the parts. -/
theorem trim_split (c : Char) (hc : isBlank c = false) (x : Str) (hx : c ∈ x) :
    ∃ n, find c (trim x) = some n ∧
      trim ((trim x).take n) = trim (beforeFirst c x) ∧
      trim ((trim x).drop (n + 1)) = trim (afterFirst c x) := by
  obtain ⟨w1, w2, hw1, hw2, hs, _⟩ := trim_decomp x
  have hmem : c ∈ trim x := mem_trim_of_mem hc hx
  obtain ⟨n, hn⟩ := find_isSome_of_mem hmem
  obtain ⟨hnot, hsplit⟩ := find_some_split hn
  have hshape : x = (w1 ++ (trim x).take n) ++ c :: ((trim x).drop (n + 1) ++ w2) := by
    conv_lhs => rw [hs, hsplit]
    simp
  have hno : c ∉ w1 ++ (trim x).take n := by
    intro hm
    rcases List.mem_append.mp hm with hm | hm
    · exact not_mem_of_blank hc hw1 hm
    · exact hnot hm
  refine ⟨n, hn, ?_, ?_⟩
  · have : beforeFirst c x = w1 ++ (trim x).take n := by
      conv_lhs => rw [hshape]
      exact beforeFirst_append_cons _ hno
    rw [this, trim_blank_append _ _ hw1]
  · have : afterFirst c x = (trim x).drop (n + 1) ++ w2 := by
      conv_lhs => rw [hshape]
      exact afterFirst_append_cons _ hno
    rw [this, trim_append_blank _ _ hw2]

theorem mem_of_find_some {c : Char} {s : Str} {n : Nat} (h : find c s = some n) : c ∈ s := by
  have := (find_some_split h).2
  rw [this]
  simp

theorem parseRange_eq (name range_str : Str) (n : Nat) :
    parseRange name range_str n =
      readNumbers name range_str (trim (range_str.take n)) (trim (range_str.drop (n + 1))) :=
  rfl

/-- A token with a `':'` and a `'-'` after it is read through its four parts:
the name, the range, the start and the end, each trimmed. -/
theorem parseToken_eq (tok : Str) (hc : ':' ∈ tok) (hd : '-' ∈ afterFirst ':' tok) :
    parseToken tok =
      readNumbers (trim (beforeFirst ':' tok)) (trim (afterFirst ':' tok))
        (trim (beforeFirst '-' (afterFirst ':' tok)))
        (trim (afterFirst '-' (afterFirst ':' tok))) := by
  obtain ⟨n, hn, hname, hrange⟩ := trim_split ':' (by decide) tok hc
  obtain ⟨m, hm, hstart, hend⟩ := trim_split '-' (by decide) (afterFirst ':' tok) hd
  unfold parseToken
  simp only [hn, hname, hrange, hm, parseRange_eq, hstart, hend]

/-- What a token that parses gives: it has a `':'`, the name is the trimmed
text before it, and the range is in order. -/
theorem parseToken_ok_inv {tok : Str} {en : MaskEntry} (h : parseToken tok = .ok en) :
    ':' ∈ tok ∧ en.name = trim (beforeFirst ':' tok) ∧
      0 ≤ en.start_byte ∧ en.start_byte ≤ en.end_byte := by
  unfold parseToken at h
  cases hf : find ':' (trim tok) with
  | none => simp [hf] at h
  | some n =>
    have hc : ':' ∈ tok := mem_of_mem_trim (mem_of_find_some hf)
    obtain ⟨n2, hn2, hname, _⟩ := trim_split ':' (by decide) tok hc
    have hnn : n2 = n := by rw [hf] at hn2; injection hn2 with e; exact e.symm
    subst hnn
    simp only [hf] at h
    cases hd : find '-' (trim ((trim tok).drop (n2 + 1))) with
    | none => simp [hd] at h
    | some m =>
      simp only [hd, parseRange_eq, readNumbers] at h
      split at h
      · cases h
      · cases h
      · split at h
        · cases h
        · cases h
        · split at h
          · cases h
          · rename_i hcond
            injection h with h
            subst h
            refine ⟨hc, hname, ?_, ?_⟩
            · show _ ≤ _
              simp only
              omega
            · show _ ≤ _
              simp only
              omega

/-- What a successful loop returns: the entries before it, then one entry for
each token, in order. -/
theorem parseTokens_ok_inv (toks : List Str) (acc fs : List MaskEntry)
    (h : parseTokens toks acc = .ok fs) :
    ∃ ens, fs = acc ++ ens ∧ List.Forall₂ (fun tok en => parseToken tok = .ok en) toks ens := by
  induction toks generalizing acc with
  | nil =>
    simp only [parseTokens] at h
    injection h with h
    exact ⟨[], by simp [h], List.Forall₂.nil⟩
  | cons tok toks ih =>
    cases hp : parseToken tok with
    | error e => simp [parseTokens, hp] at h
    | ok en =>
      rw [parseTokens_ok _ _ hp] at h
      obtain ⟨ens, hfs, hall⟩ := ih _ h
      exact ⟨en :: ens, by simp [hfs], List.Forall₂.cons hp hall⟩

/-- Every entry of a successful parse comes from a token of the mask. -/
theorem ParseMaskString_ok_inv {s : Str} {fs : List MaskEntry} (h : ParseMaskString s = .ok fs) :
    ∀ f ∈ fs, ∃ tok ∈ getlines s, parseToken tok = .ok f := by
  obtain ⟨ens, hfs, hall⟩ := parseTokens_ok_inv _ _ _ h
  simp only [List.nil_append] at hfs
  subst hfs
  have key : ∀ (toks : List Str) (ens : List MaskEntry),
      List.Forall₂ (fun tok en => parseToken tok = .ok en) toks ens →
      ∀ f ∈ ens, ∃ tok ∈ toks, parseToken tok = .ok f := by
    intro toks ens hall
    induction hall with
    | nil => intro f hf; cases hf
    | cons hd _ ih =>
      intro f hf
      rcases List.mem_cons.mp hf with e | e
      · subst e
        exact ⟨_, by simp, hd⟩
      · obtain ⟨tok, ht, hp⟩ := ih f e
        exact ⟨tok, List.mem_cons_of_mem _ ht, hp⟩
  exact key _ _ hall

/-- The first token that throws ends the parse of the mask. -/
theorem ParseMaskString_first_error {s : Str} {e : Exn} (hne : s ≠ [])
    (h : parseToken (firstToken s) = .error e) : ParseMaskString s = .error e := by
  obtain ⟨toks, htoks⟩ := getlines_firstToken s hne
  unfold ParseMaskString
  rw [htoks, parseTokens_error toks [] h]

theorem ne_nil_of_mem_firstToken {c : Char} {s : Str} (h : c ∈ firstToken s) : s ≠ [] := by
  intro e; subst e
  simp [firstToken] at h

/-! ## Signed numbers -/

theorem to_string_nonneg (n : Int) (h : 0 ≤ n) : to_string n = decimal n := by
  have h1 : ¬ n < 0 := by omega
  have h2 : n.natAbs = n.toNat := by omega
  simp [to_string, decimal, h1, h2]

theorem to_string_neg (n : Int) (h : n < 0) : to_string n = '-' :: decimal (-n) := by
  have h2 : n.natAbs = (-n).toNat := by omega
  simp [to_string, decimal, h, h2]

/-- The model of `stoi` reads a `'-'` followed by a run of digits as the
negative number. -/
theorem stoi_minus_digits (ds : Str) (hne : ds ≠ []) (hdig : ∀ c ∈ ds, c.isDigit = true)
    (hv : digitsValue ds ≤ 2147483648) :
    stoi ('-' :: ds) = .ok (-(digitsValue ds : Int)) := by
  have hsp : ('-' :: ds).dropWhile isspace = '-' :: ds := by
    simp [List.dropWhile, show isspace '-' = false by decide]
  have hsign : stoiSign ('-' :: ds) = (true, ds) := rfl
  have htw : ds.takeWhile Char.isDigit = ds := by
    rw [List.takeWhile_eq_self_iff]
    exact hdig
  unfold stoi
  simp only [hsp, hsign, htw]
  have h1 : ((digitsValue ds : Nat) : Int) ≤ 2147483648 := by exact_mod_cast hv
  have h0 : (0 : Int) ≤ (digitsValue ds : Int) := Int.ofNat_nonneg _
  simp [hne]
  omega

/-- Reading back what `to_string` writes gives the number. -/
theorem stoi_to_string (n : Int) (h0 : -2147483648 ≤ n) (h1 : n ≤ 2147483647) :
    stoi (to_string n) = .ok n := by
  by_cases hn : 0 ≤ n
  · rw [to_string_nonneg n hn]
    exact stoi_decimal n hn h1
  · have hneg : n < 0 := by omega
    rw [to_string_neg n hneg]
    obtain ⟨hne, hdig, hval⟩ := decimal_spec (-n) (by omega)
    have hv : digitsValue (decimal (-n)) ≤ 2147483648 := by
      have : (digitsValue (decimal (-n)) : Int) ≤ 2147483648 := by rw [hval]; omega
      exact_mod_cast this
    rw [stoi_minus_digits _ hne hdig hv, hval]
    simp

theorem to_string_ne_nil (n : Int) : to_string n ≠ [] := by
  by_cases hn : 0 ≤ n
  · rw [to_string_nonneg n hn]
    exact (decimal_spec n hn).1
  · rw [to_string_neg n (by omega)]
    simp

theorem to_string_tight (n : Int) : Tight (to_string n) := by
  by_cases hn : 0 ≤ n
  · rw [to_string_nonneg n hn]
    exact tight_of_digits (decimal_spec n hn).2.1
  · rw [to_string_neg n (by omega)]
    obtain ⟨hne, hdig, _⟩ := decimal_spec (-n) (by omega)
    constructor
    · intro c hc
      simp at hc
      subst hc
      decide
    · intro c hc
      have : ('-' :: decimal (-n)).getLast? = (decimal (-n)).getLast? := by
        cases hd : decimal (-n) with
        | nil => exact absurd hd hne
        | cons x xs => rw [List.getLast?_cons_cons]
      rw [this] at hc
      exact (tight_of_digits hdig).2 c hc

/-- A start that is cut before the first `'-'` of the range is never read as
a negative number: the test `start_byte < 0` of line 63 cannot hold. -/
theorem stoi_nonneg_of_no_minus {s : Str} {v : Int} (hs : '-' ∉ s) (h : stoi s = .ok v) :
    0 ≤ v := by
  unfold stoi at h
  have hsign : (stoiSign (s.dropWhile isspace)).1 = false := by
    cases hd : s.dropWhile isspace with
    | nil => rfl
    | cons c cs =>
      have hmem : c ∈ s := by
        have : c ∈ s.dropWhile isspace := by rw [hd]; simp
        exact (List.dropWhile_sublist _).subset this
      have hc : c ≠ '-' := fun e => hs (e ▸ hmem)
      unfold stoiSign
      split
      · rename_i heq; injection heq with h1 _; exact absurd h1 hc
      · rfl
      · rfl
  simp only [hsign, Bool.false_eq_true, if_false] at h
  split at h
  · cases h
  · split at h
    · cases h
    · injection h with h
      subst h
      exact Int.ofNat_nonneg _

theorem parseRange_start_nonneg {range_str : Str} {m : Nat} {v : Int}
    (hm : find '-' range_str = some m) (h : stoi (trim (range_str.take m)) = .ok v) :
    0 ≤ v :=
  stoi_nonneg_of_no_minus (fun hmem => (find_some_split hm).1 (mem_of_mem_trim hmem)) h

/-! ## Claims on the numbers of a token -/

/-- Claim C11, as stated, fails: in `"a:1x-2"` the start text `1x` is no valid
base-10 integer, yet the mask parses, to the entry `{a, 1, 2}`; and in
`"a:99999999999-x"` the end text `x` is no valid integer, yet the exception
is the `std::out_of_range` of the start, not the one of line 69. -/
theorem ParseMaskString_accepts_trailing_text :
    isDecimalInteger
        (trim (beforeFirst '-' (afterFirst ':' (firstToken "a:1x-2".toList)))) = false ∧
      ParseMaskString "a:1x-2".toList =
        .ok [{ name := "a".toList, start_byte := 1, end_byte := 2 }] ∧
      isDecimalInteger
        (trim (afterFirst '-' (afterFirst ':' (firstToken "a:99999999999-x".toList)))) = false ∧
      ParseMaskString "a:99999999999-x".toList = .error .out_of_range :=
  ⟨by decide, rfl, by decide, rfl⟩

/-- Claim C11, amended: for every mask whose first token has a `':'` and a
`'-'` after it, with `start_str` and `end_str` the trimmed texts before and
after the first `'-'` of the text after the first `':'`: if `stoi` finds no
number at the head of `start_str` (after white space and an optional sign
no digit follows), or it reads `start_str` as an `int` and finds no number at
the head of `end_str`, then `ParseMaskString` fails with the exception of
line 69, whose message is the fixed text followed by the trimmed range. -/
theorem ParseMaskString_invalid_number (s : Str)
    (hcolon : ':' ∈ firstToken s) (hdash : '-' ∈ afterFirst ':' (firstToken s))
    (h : stoi (trim (beforeFirst '-' (afterFirst ':' (firstToken s)))) =
          .error .invalid_argument ∨
        ((∃ v, stoi (trim (beforeFirst '-' (afterFirst ':' (firstToken s)))) = .ok v) ∧
          stoi (trim (afterFirst '-' (afterFirst ':' (firstToken s)))) =
            .error .invalid_argument)) :
    ParseMaskString s =
      .error (.InvalidInputException
        ("Invalid byte range numbers in: ".toList ++ trim (afterFirst ':' (firstToken s)))) := by
  apply ParseMaskString_first_error (ne_nil_of_mem_firstToken hcolon)
  rw [parseToken_eq _ hcolon hdash]
  unfold readNumbers
  rcases h with h | ⟨⟨v, hv⟩, h⟩
  · rw [h]; rfl
  · rw [hv]; simp only [h]; rfl

/-- Witness of C11 amended: the mask `"a:x-1"`. -/
theorem ParseMaskString_invalid_number_witness :
    ParseMaskString "a:x-1".toList =
      .error (.InvalidInputException "Invalid byte range numbers in: x-1".toList) :=
  ParseMaskString_invalid_number "a:x-1".toList (by decide) (by decide) (Or.inl rfl)

theorem renderSigned_parts (p : Padding) (name : Str) (start_byte end_byte : Int)
    (hp : p.IsBlank) (hname : ':' ∉ name) (h0 : 0 ≤ start_byte) :
    ':' ∈ renderSigned p name start_byte end_byte ∧
      '-' ∈ afterFirst ':' (renderSigned p name start_byte end_byte) ∧
      trim (beforeFirst '-' (afterFirst ':' (renderSigned p name start_byte end_byte))) =
        to_string start_byte ∧
      trim (afterFirst '-' (afterFirst ':' (renderSigned p name start_byte end_byte))) =
        to_string end_byte := by
  obtain ⟨htL, htR, hnL, hnR, hrL, hrR, hsL, hsR, heL, heR⟩ := hp
  have hS : to_string start_byte = decimal start_byte := to_string_nonneg _ h0
  obtain ⟨_, hsdig, _⟩ := decimal_spec start_byte h0
  have hshape : renderSigned p name start_byte end_byte =
      (p.tokenL ++ p.nameL ++ name ++ p.nameR) ++
        ':' :: ((p.rangeL ++ p.startL ++ to_string start_byte ++ p.startR) ++
          '-' :: (p.endL ++ to_string end_byte ++ (p.endR ++ p.rangeR ++ p.tokenR))) := by
    simp [renderSigned]
  have hno : ':' ∉ p.tokenL ++ p.nameL ++ name ++ p.nameR := by
    simp only [List.mem_append, not_or]
    exact ⟨⟨⟨not_mem_of_blank (by decide) htL, not_mem_of_blank (by decide) hnL⟩, hname⟩,
      not_mem_of_blank (by decide) hnR⟩
  have hafter : afterFirst ':' (renderSigned p name start_byte end_byte) =
      (p.rangeL ++ p.startL ++ to_string start_byte ++ p.startR) ++
        '-' :: (p.endL ++ to_string end_byte ++ (p.endR ++ p.rangeR ++ p.tokenR)) := by
    rw [hshape]
    exact afterFirst_append_cons _ hno
  have hnod : '-' ∉ p.rangeL ++ p.startL ++ to_string start_byte ++ p.startR := by
    simp only [List.mem_append, not_or]
    refine ⟨⟨⟨not_mem_of_blank (by decide) hrL, not_mem_of_blank (by decide) hsL⟩, ?_⟩,
      not_mem_of_blank (by decide) hsR⟩
    rw [hS]
    exact not_mem_of_digits (by decide) hsdig
  refine ⟨?_, ?_, ?_, ?_⟩
  · rw [hshape]; simp
  · rw [hafter]; simp
  · rw [hafter, beforeFirst_append_cons _ hnod]
    have := trim_pad (p.rangeL ++ p.startL) (to_string start_byte) p.startR
      (blank_append hrL hsL) hsR (to_string_tight _)
    simpa using this
  · rw [hafter, afterFirst_append_cons _ hnod]
    have := trim_pad p.endL (to_string end_byte) (p.endR ++ p.rangeR ++ p.tokenR) heL
      (blank_append (blank_append heR hrR) htR) (to_string_tight _)
    simpa using this

/-- Whatever the way the two numbers are written: when `stoi` reads the start
as `start_byte ≥ 0` and the end as `end_byte < start_byte`, the first token
throws the exception of line 64 with both values in its message. -/
theorem ParseMaskString_invalid_range_of_stoi (s : Str) (start_byte end_byte : Int)
    (hcolon : ':' ∈ firstToken s) (hdash : '-' ∈ afterFirst ':' (firstToken s))
    (hstart : stoi (trim (beforeFirst '-' (afterFirst ':' (firstToken s)))) = .ok start_byte)
    (hend : stoi (trim (afterFirst '-' (afterFirst ':' (firstToken s)))) = .ok end_byte)
    (h : start_byte < 0 ∨ end_byte < start_byte) :
    ParseMaskString s =
      .error (.InvalidInputException (msgInvalidRange start_byte end_byte)) := by
  apply ParseMaskString_first_error (ne_nil_of_mem_firstToken hcolon)
  rw [parseToken_eq _ hcolon hdash]
  unfold readNumbers
  rw [hstart, hend]
  simp only [h, if_true]

/-- Claim C12. End before start: for every mask whose first token is
`name ':' start '-' end`, blank padding allowed around the parts, with the
two numbers in decimal and in 32-bit range, `start ≥ 0` and `end < start`,
`ParseMaskString` fails with the exception of line 64, whose message is the
fixed text followed by `start`, a `'-'` and `end`, both in decimal. -/
theorem ParseMaskString_end_before_start (s : Str) (p : Padding) (name : Str)
    (start_byte end_byte : Int)
    (htok : firstToken s = renderSigned p name start_byte end_byte)
    (hp : p.IsBlank) (hname : ':' ∉ name)
    (h0 : 0 ≤ start_byte) (h1 : start_byte ≤ 2147483647)
    (h2 : -2147483648 ≤ end_byte) (h3 : end_byte < start_byte) :
    ParseMaskString s =
      .error (.InvalidInputException
        ("Invalid byte range: ".toList ++ to_string start_byte ++ "-".toList ++
          to_string end_byte)) := by
  obtain ⟨hc, hd, hstart, hend⟩ := renderSigned_parts p name start_byte end_byte hp hname h0
  have hne : s ≠ [] := ne_nil_of_mem_firstToken (htok ▸ hc)
  apply ParseMaskString_first_error hne
  rw [htok, parseToken_eq _ hc hd, hstart, hend]
  unfold readNumbers
  rw [stoi_to_string start_byte (by omega) h1, stoi_to_string end_byte h2 (by omega)]
  have : start_byte < 0 ∨ end_byte < start_byte := Or.inr h3
  simp only [this, if_true]
  rfl

/-- Witness of C12: the mask `"a:3-1"`. -/
theorem ParseMaskString_end_before_start_witness :
    ParseMaskString "a:3-1".toList =
      .error (.InvalidInputException "Invalid byte range: 3-1".toList) :=
  ParseMaskString_end_before_start "a:3-1".toList noPadding "a".toList 3 1 rfl
    (by simp [Padding.IsBlank, noPadding, blank_nil]) (by decide) (by decide) (by decide)
    (by decide) (by decide)

theorem msgInvalidNumber_ne_msgInvalidRange (r : Str) (a b : Int) :
    msgInvalidNumber r ≠ msgInvalidRange a b := by
  intro h
  have h1 : (msgInvalidNumber r).take 19 = "Invalid byte range ".toList := rfl
  have h2 : (msgInvalidRange a b).take 19 = "Invalid byte range:".toList := rfl
  rw [h, h2] at h1
  revert h1
  decide

/-- Claim C13, in the code: for every mask whose first token has a range
that begins with `'-'`, the sign of a negative start, `ParseMaskString` fails
with the exception of line 69, about numbers, whose message is the fixed
text followed by the trimmed range; it is never the exception of line 64,
about the range. -/
theorem ParseMaskString_negative_start (s : Str) (hcolon : ':' ∈ firstToken s)
    (hneg : (trim (afterFirst ':' (firstToken s))).head? = some '-') :
    ParseMaskString s =
        .error (.InvalidInputException
          ("Invalid byte range numbers in: ".toList ++ trim (afterFirst ':' (firstToken s)))) ∧
      ∀ a b : Int,
        ParseMaskString s ≠ .error (.InvalidInputException (msgInvalidRange a b)) := by
  have hfirst : ParseMaskString s =
      .error (.InvalidInputException (msgInvalidNumber (trim (afterFirst ':' (firstToken s))))) := by
    apply ParseMaskString_first_error (ne_nil_of_mem_firstToken hcolon)
    obtain ⟨n, hn, _, hrange⟩ := trim_split ':' (by decide) (firstToken s) hcolon
    obtain ⟨rest, hrest⟩ : ∃ rest, trim (afterFirst ':' (firstToken s)) = '-' :: rest := by
      cases hr : trim (afterFirst ':' (firstToken s)) with
      | nil => rw [hr] at hneg; simp at hneg
      | cons c cs =>
        rw [hr] at hneg
        simp at hneg
        exact ⟨cs, by rw [hneg]⟩
    have hfind : find '-' (trim (afterFirst ':' (firstToken s))) = some 0 := by
      rw [hrest]; simp [find]
    unfold parseToken
    simp only [hn, hrange, hfind, parseRange_eq, List.take_zero]
    rfl
  refine ⟨hfirst, ?_⟩
  intro a b h
  rw [hfirst] at h
  injection h with h
  injection h with h
  exact msgInvalidNumber_ne_msgInvalidRange _ a b h

/-- Witness of C13, the failing input: the mask `"a:-1-5"` fails with the
exception about numbers. -/
theorem ParseMaskString_negative_start_witness :
    ParseMaskString "a:-1-5".toList =
        .error (.InvalidInputException "Invalid byte range numbers in: -1-5".toList) ∧
      ∀ a b : Int,
        ParseMaskString "a:-1-5".toList ≠
          .error (.InvalidInputException (msgInvalidRange a b)) :=
  ParseMaskString_negative_start "a:-1-5".toList (by decide) (by decide)

/-- Claim C14. Range invariant of parsed fields: for every mask on which
`ParseMaskString` succeeds, every entry of the returned list has
`start_byte ≥ 0` and `end_byte ≥ start_byte`. -/
theorem ParseMaskString_range_invariant (s : Str) (fs : List MaskEntry)
    (h : ParseMaskString s = .ok fs) :
    ∀ f ∈ fs, f.start_byte ≥ 0 ∧ f.end_byte ≥ f.start_byte := by
  intro f hf
  obtain ⟨tok, _, hp⟩ := ParseMaskString_ok_inv h f hf
  obtain ⟨_, _, h0, h1⟩ := parseToken_ok_inv hp
  exact ⟨h0, h1⟩

/-- Witness of C14: the mask `"a:0-1,b:2-3"`. -/
theorem ParseMaskString_range_invariant_witness :
    ParseMaskString "a:0-1,b:2-3".toList =
        .ok [{ name := "a".toList, start_byte := 0, end_byte := 1 },
             { name := "b".toList, start_byte := 2, end_byte := 3 }] ∧
      ∀ f ∈ ([{ name := "a".toList, start_byte := 0, end_byte := 1 },
              { name := "b".toList, start_byte := 2, end_byte := 3 }] : List MaskEntry),
        f.start_byte ≥ 0 ∧ f.end_byte ≥ f.start_byte :=
  ⟨rfl, ParseMaskString_range_invariant "a:0-1,b:2-3".toList _ rfl⟩

theorem trim_eq_nil_iff (x : Str) : trim x = [] ↔ Blank x := by
  obtain ⟨w1, w2, h1, h2, hs, ht⟩ := trim_decomp x
  constructor
  · intro h
    rw [hs, h]
    exact blank_append (blank_append h1 blank_nil) h2
  · intro hb
    cases hx : trim x with
    | nil => rfl
    | cons c cs =>
      have hc : isBlank c = false := ht.1 c (by rw [hx]; rfl)
      have hmem : c ∈ x := mem_of_mem_trim (by rw [hx]; simp)
      rw [hb c hmem] at hc
      cases hc

/-- Claim C15, as stated, fails: the mask `":0-1"` parses, to an entry whose
name is empty. -/
theorem ParseMaskString_empty_name :
    ParseMaskString ":0-1".toList = .ok [{ name := [], start_byte := 0, end_byte := 1 }] :=
  rfl

/-- Claim C15, amended: for every mask on which `ParseMaskString` succeeds,
the returned list has one entry for each token of the mask, in token order,
and the entry of a token is the one this token parses to: its name is the
text before the first `':'` of that very token, trimmed of spaces and tabs,
and it is non-empty exactly when that text has a character other than a
space and a tab. -/
theorem ParseMaskString_name_invariant (s : Str) (fs : List MaskEntry)
    (h : ParseMaskString s = .ok fs) :
    List.Forall₂
      (fun tok f => parseToken tok = .ok f ∧ ':' ∈ tok ∧
        f.name = trim (beforeFirst ':' tok) ∧
        (f.name ≠ [] ↔ ¬ Blank (beforeFirst ':' tok)))
      (getlines s) fs := by
  obtain ⟨ens, hfs, hall⟩ := parseTokens_ok_inv _ _ _ h
  simp only [List.nil_append] at hfs
  subst hfs
  refine List.Forall₂.imp ?_ hall
  intro tok f hp
  obtain ⟨hc, hname, _, _⟩ := parseToken_ok_inv hp
  refine ⟨hp, hc, hname, ?_⟩
  rw [hname, ← trim_eq_nil_iff]

/-- Witness of C15 amended: the mask `"alpha:0-1, :2-3"`, whose second token
gives an empty name. -/
theorem ParseMaskString_name_invariant_witness :
    ParseMaskString "alpha:0-1, :2-3".toList =
        .ok [{ name := "alpha".toList, start_byte := 0, end_byte := 1 },
             { name := [], start_byte := 2, end_byte := 3 }] ∧
      List.Forall₂
        (fun tok f => parseToken tok = .ok f ∧ ':' ∈ tok ∧
          f.name = trim (beforeFirst ':' tok) ∧
          (f.name ≠ [] ↔ ¬ Blank (beforeFirst ':' tok)))
        (getlines "alpha:0-1, :2-3".toList)
        [{ name := "alpha".toList, start_byte := 0, end_byte := 1 },
         { name := [], start_byte := 2, end_byte := 3 }] :=
  ⟨rfl, ParseMaskString_name_invariant "alpha:0-1, :2-3".toList _ rfl⟩

/-! ## Claims on the row driver -/

/-- A row with mask and payload whose endianness is settled is handled by
`decodeRow`. -/
theorem processRow_eq_decodeRow (host : Host) (has_endianness_param : Bool)
    (total_entries : Nat) (row : Row) (mask : Str) (payload : List Byte) (be : Bool)
    (hmask : row.mask = some mask) (hpayload : row.payload = some payload)
    (hbe : resolveEndianness has_endianness_param row.endian = .ok be) :
    processRow host has_endianness_param total_entries row =
      decodeRow host total_entries mask payload be := by
  unfold processRow decodeRow
  simp only [hmask, hpayload, hbe]

/-- Claim C16. Endianness token resolution: for a row with non-null mask and
payload and a non-null third input `e`.  When `e` is exactly `"big"` the row
is decoded big-endian: if the mask parses to `fs` within the capacity, the
entries are `(f.name, ExtractBytesToInt(payload, f.start_byte, f.end_byte, true))`
for `f` in `fs`; past the capacity the exception of line 169 is thrown; if
the mask does not parse, its exception is thrown.  When `e` is exactly
`"little"` the same holds with the flag `false`.  For every other string (no
change of case, no trimming) the row fails with the exception of line 158,
whose message ends with `e`, whatever the mask is. -/
theorem processRow_endianness (host : Host) (total_entries : Nat) (row : Row) (mask : Str)
    (payload : List Byte) (e : Str)
    (hmask : row.mask = some mask) (hpayload : row.payload = some payload)
    (he : row.endian = some e) :
    (e = "big".toList →
        (∀ fs, ParseMaskString mask = .ok fs →
          total_entries + fs.length ≤ host.STANDARD_VECTOR_SIZE →
          processRow host true total_entries row =
            .ok { is_null := false, offset := total_entries, length := fs.length,
                  entries := fs.map fun f =>
                    (f.name, ExtractBytesToInt payload f.start_byte f.end_byte true) }) ∧
        (∀ fs, ParseMaskString mask = .ok fs →
          total_entries + fs.length > host.STANDARD_VECTOR_SIZE →
          processRow host true total_entries row =
            .error (.InvalidInputException msgCapacity)) ∧
        (∀ E, ParseMaskString mask = .error E →
          processRow host true total_entries row = .error (rethrow host E))) ∧
      (e = "little".toList →
        (∀ fs, ParseMaskString mask = .ok fs →
          total_entries + fs.length ≤ host.STANDARD_VECTOR_SIZE →
          processRow host true total_entries row =
            .ok { is_null := false, offset := total_entries, length := fs.length,
                  entries := fs.map fun f =>
                    (f.name, ExtractBytesToInt payload f.start_byte f.end_byte false) }) ∧
        (∀ fs, ParseMaskString mask = .ok fs →
          total_entries + fs.length > host.STANDARD_VECTOR_SIZE →
          processRow host true total_entries row =
            .error (.InvalidInputException msgCapacity)) ∧
        (∀ E, ParseMaskString mask = .error E →
          processRow host true total_entries row = .error (rethrow host E))) ∧
      (e ≠ "big".toList → e ≠ "little".toList →
        processRow host true total_entries row =
          .error (.InvalidInputException
            ("Invalid endianness parameter. Must be 'big' or 'little', got: ".toList ++ e))) := by
  refine ⟨?_, ?_, ?_⟩
  · intro hbig
    have hrow : processRow host true total_entries row =
        decodeRow host total_entries mask payload true := by
      apply processRow_eq_decodeRow _ _ _ _ _ _ _ hmask hpayload
      simp [resolveEndianness, he, hbig]
    rw [hrow]
    refine ⟨?_, ?_, ?_⟩
    · intro fs hp hc
      have hc2 : ¬ total_entries + fs.length > host.STANDARD_VECTOR_SIZE := by omega
      simp [decodeRow, hp, hc2, decodeEntries]
    · intro fs hp hc
      simp [decodeRow, hp, hc]
    · intro E hp
      simp [decodeRow, hp]
  · intro hlittle
    have hrow : processRow host true total_entries row =
        decodeRow host total_entries mask payload false := by
      apply processRow_eq_decodeRow _ _ _ _ _ _ _ hmask hpayload
      rw [he, hlittle]
      rfl
    rw [hrow]
    refine ⟨?_, ?_, ?_⟩
    · intro fs hp hc
      have hc2 : ¬ total_entries + fs.length > host.STANDARD_VECTOR_SIZE := by omega
      simp [decodeRow, hp, hc2, decodeEntries]
    · intro fs hp hc
      simp [decodeRow, hp, hc]
    · intro E hp
      simp [decodeRow, hp]
  · intro h1 h2
    unfold processRow
    simp only [hmask, hpayload, he, resolveEndianness, if_true, h1, h2, if_false]
    rfl

/-- Witness of C16: on the payload `01 02` the mask `"a:0-1"` gives `0x0102`
with `"big"` and `0x0201` with `"little"`; the tokens `"BIG"`, `" big"` and the
empty string fail, here against a mask that does not parse either. -/
theorem processRow_endianness_witness :
    processRow defaultHost true 0
        { mask := some "a:0-1".toList, payload := some [1, 2], endian := some "big".toList } =
        .ok { is_null := false, offset := 0, length := 1, entries := [("a".toList, 258)] } ∧
      processRow defaultHost true 0
        { mask := some "a:0-1".toList, payload := some [1, 2],
          endian := some "little".toList } =
        .ok { is_null := false, offset := 0, length := 1, entries := [("a".toList, 513)] } ∧
      processRow defaultHost true 0
        { mask := some "bad".toList, payload := some [1, 2], endian := some "BIG".toList } =
        .error (.InvalidInputException
          "Invalid endianness parameter. Must be 'big' or 'little', got: BIG".toList) ∧
      processRow defaultHost true 0
        { mask := some "bad".toList, payload := some [1, 2], endian := some " big".toList } =
        .error (.InvalidInputException
          "Invalid endianness parameter. Must be 'big' or 'little', got:  big".toList) ∧
      processRow defaultHost true 0
        { mask := some "bad".toList, payload := some [1, 2], endian := some [] } =
        .error (.InvalidInputException
          "Invalid endianness parameter. Must be 'big' or 'little', got: ".toList) :=
  ⟨((processRow_endianness defaultHost 0 _ "a:0-1".toList [1, 2] "big".toList rfl rfl rfl).1
      rfl).1 [{ name := "a".toList, start_byte := 0, end_byte := 1 }] rfl (by decide),
    ((processRow_endianness defaultHost 0 _ "a:0-1".toList [1, 2] "little".toList
      rfl rfl rfl).2.1 rfl).1 [{ name := "a".toList, start_byte := 0, end_byte := 1 }] rfl
      (by decide),
    (processRow_endianness defaultHost 0 _ "bad".toList [1, 2] "BIG".toList rfl rfl rfl).2.2
      (by decide) (by decide),
    (processRow_endianness defaultHost 0 _ "bad".toList [1, 2] " big".toList rfl rfl rfl).2.2
      (by decide) (by decide),
    (processRow_endianness defaultHost 0 _ "bad".toList [1, 2] [] rfl rfl rfl).2.2
      (by decide) (by decide)⟩

theorem processRow_two_args (host : Host) (total_entries : Nat) (row : Row) :
    processRow host false total_entries row =
      processRow host true total_entries (row.withEndian (some "big".toList)) := by
  unfold processRow Row.withEndian
  cases row.mask <;> cases row.payload <;> rfl

theorem rowLoop_two_args (host : Host) (rows : List Row) (total_entries : Nat) :
    rowLoop host false rows total_entries =
      rowLoop host true (rows.map fun r => r.withEndian (some "big".toList)) total_entries := by
  induction rows generalizing total_entries with
  | nil => rfl
  | cons row rows ih =>
    simp only [List.map_cons, rowLoop]
    rw [← processRow_two_args]
    cases processRow host false total_entries row with
    | error e => rfl
    | ok r => simp only [ih]

/-- Claim C17. Default endianness is big-endian: for every mask and payload,
the two-argument form gives the same result or the same error as the
three-argument form with the token `"big"`, row by row and for the batch. -/
theorem MaskBytesScalarFun_default_big (host : Host) :
    (∀ (total_entries : Nat) (row : Row),
      processRow host false total_entries row =
        processRow host true total_entries (row.withEndian (some "big".toList))) ∧
      ∀ rows : List Row,
        MaskBytesScalarFun host false rows =
          MaskBytesScalarFun host true (rows.map fun r => r.withEndian (some "big".toList)) :=
  ⟨processRow_two_args host, fun rows => rowLoop_two_args host rows 0⟩

/-- Claim C18. Null inputs are not errors: for every row in which the mask or
the payload is null, whatever the other inputs are, the row's result is null
with zero entries, no exception is thrown, and the rows that follow are
processed with the same running total. -/
theorem processRow_null (host : Host) (has_endianness_param : Bool) (total_entries : Nat)
    (row : Row) (h : row.mask = none ∨ row.payload = none) :
    processRow host has_endianness_param total_entries row =
        .ok { is_null := true, offset := total_entries, length := 0, entries := [] } ∧
      ∀ rows : List Row,
        rowLoop host has_endianness_param (row :: rows) total_entries =
          match rowLoop host has_endianness_param rows total_entries with
          | .error e => .error e
          | .ok (rs, total) =>
            .ok ({ is_null := true, offset := total_entries, length := 0, entries := [] } :: rs,
              total) := by
  have hrow : processRow host has_endianness_param total_entries row =
      .ok { is_null := true, offset := total_entries, length := 0, entries := [] } := by
    unfold processRow
    rcases h with h | h
    · rw [h]
    · rw [h]
      cases row.mask <;> rfl
  refine ⟨hrow, ?_⟩
  intro rows
  simp only [rowLoop, hrow, Nat.add_zero]

/-- Witness of C18: a null mask next to an endianness token that is not
valid. -/
theorem processRow_null_witness :
    processRow defaultHost true 7
        { mask := none, payload := some [1, 2], endian := some "BIG".toList } =
        .ok { is_null := true, offset := 7, length := 0, entries := [] } ∧
      ∀ rows : List Row,
        rowLoop defaultHost true
            ({ mask := none, payload := some [1, 2], endian := some "BIG".toList } :: rows) 7 =
          match rowLoop defaultHost true rows 7 with
          | .error e => .error e
          | .ok (rs, total) =>
            .ok ({ is_null := true, offset := 7, length := 0, entries := [] } :: rs, total) :=
  processRow_null defaultHost true 7
    { mask := none, payload := some [1, 2], endian := some "BIG".toList } (Or.inl rfl)

theorem getlines_append_trailing_comma (s : Str) (hne : s ≠ [])
    (hlast : s.getLast? ≠ some ',') : getlines (s ++ [',']) = getlines s := by
  induction s with
  | nil => exact absurd rfl hne
  | cons c cs ih =>
    cases cs with
    | nil =>
      have hc : c ≠ ',' := by
        intro e; apply hlast; simp [e]
      simp [getlines, hc]
    | cons d ds =>
      have hl : (d :: ds).getLast? ≠ some ',' := by
        rw [List.getLast?_cons_cons] at hlast; exact hlast
      have := ih (by simp) hl
      by_cases hc : c = ','
      · simp only [List.cons_append, getlines, hc, if_true] at this ⊢
        rw [this]
      · simp only [List.cons_append, getlines, hc, if_false] at this ⊢
        rw [this]

/-- Claim C19. One trailing comma adds no token: for every non-empty mask `s`
that does not end with `','`, `ParseMaskString (s ++ ",")` is
`ParseMaskString s`, list or exception; whereas an empty token followed by a
`','`, after tokens that parse, is read as a token and fails with the
exception of line 33, about a token without `':'`. -/
theorem ParseMaskString_trailing_comma :
    (∀ s : Str, s ≠ [] → s.getLast? ≠ some ',' →
      ParseMaskString (s ++ [',']) = ParseMaskString s) ∧
      ∀ (ws : List Str) (rest : Str),
        (∀ w ∈ ws, ',' ∉ w ∧ ∃ f, ParseMaskString w = .ok [f]) →
        getlines (commaTerminated ws ++ ',' :: rest) = ws ++ [] :: getlines rest ∧
          ParseMaskString (commaTerminated ws ++ ',' :: rest) =
            .error (.InvalidInputException
              "Invalid mask format. Expected 'name:start-end', got: ".toList) := by
  constructor
  · intro s hne hlast
    unfold ParseMaskString
    rw [getlines_append_trailing_comma s hne hlast]
  · intro ws rest hws
    have hcomma : ∀ w ∈ ws, ',' ∉ w := fun w hw => (hws w hw).1
    have htoks : getlines (commaTerminated ws ++ ',' :: rest) = ws ++ [] :: getlines rest := by
      rw [getlines_commaTerminated ws _ hcomma]
      simp [getlines]
    have hall : ∃ ens, List.Forall₂ (fun tok en => parseToken tok = .ok en) ws ens := by
      induction ws with
      | nil => exact ⟨[], List.Forall₂.nil⟩
      | cons w ws ih =>
        obtain ⟨ens, hens⟩ := ih (fun x hx => hws x (List.mem_cons_of_mem _ hx))
          (fun x hx => hcomma x (List.mem_cons_of_mem _ hx))
          (by
            rw [getlines_commaTerminated ws _ (fun x hx => hcomma x (List.mem_cons_of_mem _ hx))]
            simp [getlines])
        obtain ⟨hw, f, hf⟩ := hws w (by simp)
        exact ⟨f :: ens, List.Forall₂.cons (parseToken_of_single_ok hw hf).2 hens⟩
    obtain ⟨ens, hens⟩ := hall
    refine ⟨htoks, ?_⟩
    unfold ParseMaskString
    rw [htoks]
    exact parseTokens_prefix_error ws ens [] _ _ [] hens rfl

/-- Witness of C19: `"a:0-1,"` parses like `"a:0-1"`, while `"a:0-1,,b:2-3"`
and `","` fail on their empty token. -/
theorem ParseMaskString_trailing_comma_witness :
    ParseMaskString ("a:0-1".toList ++ [',']) = ParseMaskString "a:0-1".toList ∧
      ParseMaskString "a:0-1,,b:2-3".toList =
        .error (.InvalidInputException
          "Invalid mask format. Expected 'name:start-end', got: ".toList) ∧
      ParseMaskString ",".toList =
        .error (.InvalidInputException
          "Invalid mask format. Expected 'name:start-end', got: ".toList) :=
  ⟨ParseMaskString_trailing_comma.1 "a:0-1".toList (by decide) (by decide),
    (ParseMaskString_trailing_comma.2 ["a:0-1".toList] "b:2-3".toList (by
      intro w hw
      simp only [List.mem_singleton] at hw
      subst hw
      exact ⟨by decide, ⟨{ name := "a".toList, start_byte := 0, end_byte := 1 }, rfl⟩⟩)).2,
    (ParseMaskString_trailing_comma.2 [] [] (by intro w hw; cases hw)).2⟩

/-! ## The exceptions of a row -/

theorem parseToken_error_head {tok : Str} {e : Exn} (h : parseToken tok = .error e) :
    e = .out_of_range ∨ ∃ msg, e = .InvalidInputException msg ∧ msg.take 9 ≠ endiannessHead := by
  have hcolon : ∀ t : Str, (msgMissingColon t).take 9 ≠ endiannessHead := by
    intro t
    have : (msgMissingColon t).take 9 = "Invalid m".toList := rfl
    rw [this]; decide
  have hdash : ∀ t : Str, (msgMissingDash t).take 9 ≠ endiannessHead := by
    intro t
    have : (msgMissingDash t).take 9 = "Invalid r".toList := rfl
    rw [this]; decide
  have hnum : ∀ t : Str, (msgInvalidNumber t).take 9 ≠ endiannessHead := by
    intro t
    have : (msgInvalidNumber t).take 9 = "Invalid b".toList := rfl
    rw [this]; decide
  have hrange : ∀ a b : Int, (msgInvalidRange a b).take 9 ≠ endiannessHead := by
    intro a b
    have : (msgInvalidRange a b).take 9 = "Invalid b".toList := rfl
    rw [this]; decide
  unfold parseToken at h
  cases hf : find ':' (trim tok) with
  | none =>
    simp only [hf] at h
    injection h with h
    exact Or.inr ⟨_, h.symm, hcolon _⟩
  | some n =>
    simp only [hf] at h
    cases hd : find '-' (trim ((trim tok).drop (n + 1))) with
    | none =>
      simp only [hd] at h
      injection h with h
      exact Or.inr ⟨_, h.symm, hdash _⟩
    | some m =>
      simp only [hd, parseRange_eq, readNumbers] at h
      split at h
      · injection h with h
        exact Or.inr ⟨_, h.symm, hnum _⟩
      · injection h with h
        exact Or.inl h.symm
      · split at h
        · injection h with h
          exact Or.inr ⟨_, h.symm, hnum _⟩
        · injection h with h
          exact Or.inl h.symm
        · split at h
          · injection h with h
            exact Or.inr ⟨_, h.symm, hrange _ _⟩
          · cases h

theorem parseTokens_error_inv (toks : List Str) (acc : List MaskEntry) (e : Exn)
    (h : parseTokens toks acc = .error e) : ∃ tok ∈ toks, parseToken tok = .error e := by
  induction toks generalizing acc with
  | nil => simp [parseTokens] at h
  | cons tok toks ih =>
    cases hp : parseToken tok with
    | error e2 =>
      simp only [parseTokens, hp] at h
      injection h with h
      subst h
      exact ⟨tok, by simp, hp⟩
    | ok en =>
      rw [parseTokens_ok _ _ hp] at h
      obtain ⟨t, ht, hte⟩ := ih _ h
      exact ⟨t, List.mem_cons_of_mem _ ht, hte⟩

/-- No exception of `decodeRow` is the one about the endianness. -/
theorem decodeRow_error_head (host : Host) (total_entries : Nat) (mask : Str)
    (payload : List Byte) (be : Bool) (e : Str) :
    decodeRow host total_entries mask payload be ≠
      .error (.InvalidInputException (msgInvalidEndianness e)) := by
  have hend : (msgInvalidEndianness e).take 9 = endiannessHead := rfl
  intro h
  unfold decodeRow at h
  split at h
  · rename_i e2 hparse
    injection h with h
    obtain ⟨tok, _, htok⟩ := parseTokens_error_inv _ _ _ hparse
    rcases parseToken_error_head htok with h1 | ⟨msg, h1, h2⟩
    · subst h1
      simp only [rethrow] at h
      injection h with h
      have : (msgProcessing host.stoi_what).take 9 = "Error pro".toList := rfl
      rw [h, hend] at this
      revert this; decide
    · subst h1
      simp only [rethrow] at h
      injection h with h
      rw [h] at h2
      exact h2 hend
  · split at h
    · injection h with h
      injection h with h
      have : msgCapacity.take 9 = "Exceeded ".toList := rfl
      rw [h, hend] at this
      revert this; decide
    · cases h

theorem decodeRow_not_null (host : Host) (total_entries : Nat) (mask : Str)
    (payload : List Byte) (be : Bool) (r : RowResult)
    (h : decodeRow host total_entries mask payload be = .ok r) : r.is_null = false := by
  unfold decodeRow at h
  split at h
  · cases h
  · split at h
    · cases h
    · injection h with h
      subst h
      rfl

/-- Claim C20. A null endianness input falls back to the default: for a row
with non-null mask and payload whose third input is present but null, the
result or the exception is the one obtained with the token `"big"`; the
exception of line 158 is not thrown and the row is not null. -/
theorem null_endianness_default (host : Host) (total_entries : Nat) (row : Row)
    (mask : Str) (payload : List Byte)
    (hmask : row.mask = some mask) (hpayload : row.payload = some payload)
    (he : row.endian = none) :
    processRow host true total_entries row =
        processRow host true total_entries (row.withEndian (some "big".toList)) ∧
      resolveEndianness true row.endian = .ok true ∧
      (∀ e : Str,
        processRow host true total_entries row ≠
          .error (.InvalidInputException (msgInvalidEndianness e))) ∧
      ∀ r, processRow host true total_entries row = .ok r → r.is_null = false := by
  have hres : resolveEndianness true row.endian = .ok true := by rw [he]; rfl
  have hrow := processRow_eq_decodeRow host true total_entries row mask payload true
    hmask hpayload hres
  have hbig : processRow host true total_entries (row.withEndian (some "big".toList)) =
      decodeRow host total_entries mask payload true :=
    processRow_eq_decodeRow host true total_entries _ mask payload true hmask hpayload rfl
  refine ⟨by rw [hrow, hbig], hres, ?_, ?_⟩
  · intro e
    rw [hrow]
    exact decodeRow_error_head host total_entries mask payload true e
  · intro r hr
    rw [hrow] at hr
    exact decodeRow_not_null host total_entries mask payload true r hr

/-- Witness of C20: the mask `"a:0-1"` on the payload `01 02`, with a null
third input. -/
theorem null_endianness_default_witness :
    processRow defaultHost true 0
        { mask := some "a:0-1".toList, payload := some [1, 2], endian := none } =
        processRow defaultHost true 0
          (Row.withEndian { mask := some "a:0-1".toList, payload := some [1, 2], endian := none }
            (some "big".toList)) ∧
      resolveEndianness true
        (Row.endian { mask := some "a:0-1".toList, payload := some [1, 2], endian := none }) =
        .ok true ∧
      (∀ e : Str,
        processRow defaultHost true 0
            { mask := some "a:0-1".toList, payload := some [1, 2], endian := none } ≠
          .error (.InvalidInputException (msgInvalidEndianness e))) ∧
      ∀ r,
        processRow defaultHost true 0
            { mask := some "a:0-1".toList, payload := some [1, 2], endian := none } = .ok r →
          r.is_null = false :=
  null_endianness_default defaultHost 0
    { mask := some "a:0-1".toList, payload := some [1, 2], endian := none }
    "a:0-1".toList [1, 2] rfl rfl rfl

end ByteMasking
